import Mathlib

/-! Paroliere: a shallow embedding of `main.c`.

The program is a single C file.  Its word engine (`checkWordAndPlay`,
`findValidWord`) and the body of the main loop of `main` are embedded here.

Conventions of the embedding:

* a `char` buffer is a `List Nat` of byte values, one entry per array cell;
  a C string inside a buffer ends at the first `0` byte;
* an access outside a buffer (reading a string that has no terminator in
  its buffer, writing past the last cell, indexing a row past the last row)
  has no defined result in C, so every operation returns an `Option` and
  yields `none` there;
* `int` and `time_t` values are integers (`Int`), `size_t` values are
  naturals (`Nat`);
* `playSound` is the only effect of the engine that leaves the game
  structure: each function also returns the list of sounds it requested;
* the values that come from outside (the polled event, the value of
  `rand()`, the value of `time(NULL)`) are inputs of the step function.
-/

namespace Paroliere

/-! ## Constants -/

def MAX_GUESSED_WORDS : Nat := 64
def MAX_WORDS : Nat := 130000
def MAX_WORD_SIZE : Nat := 25
def NUM_AVAILABLE_CHARS : Nat := 10
def TIME_MAX : Int := 120
def SCREEN_DEFAULT_WIDTH : Int := 1280
def SCREEN_DEFAULT_HEIGHT : Int := 720

/-- The string literal "AEIOU" with its terminator. -/
def vocals : List Nat := [65, 69, 73, 79, 85, 0]

/-- The string literal "BCDFGHLMNPQRSTVZ" with its terminator. -/
def consonants : List Nat :=
  [66, 67, 68, 70, 71, 72, 76, 77, 78, 80, 81, 82, 83, 84, 86, 90, 0]

/-- Largest value of a C `int` (32 bits). -/
def INT_MAX : Int := 2147483647

/-! Key codes of SDL2 (`SDL_keycode.h`): a printable key has the code of its
character. -/

def SDLK_RETURN : Int := 13
def SDLK_BACKSPACE : Int := 8
def SDLK_1 : Int := 49
def SDLK_2 : Int := 50
def SDLK_q : Int := 113

/-! ## Enumerations and structures -/

inductive audios_t where
  | AUDIO_TIC
  | AUDIO_TAC
  | AUDIO_CORRECT
  | AUDIO_INCORRECT
  deriving DecidableEq, Repr

inductive lastWord_t where
  | LAST_WORD_NONE
  | LAST_WORD_VALID
  | LAST_WORD_INVALID
  deriving DecidableEq, Repr

inductive gameState_t where
  | GAME_STATE_LOADING
  | GAME_STATE_CHOOSING_LETTERS
  | GAME_STATE_RUNNING
  | GAME_STATE_ENDED
  | GAME_STATE_CLOSE
  deriving DecidableEq, Repr

/-- The word table of `assets_t` (fonts and sound handles are left out):
`words` holds the rows of the table, `numWords` the number of rows in use. -/
structure assets_t where
  words : List (List Nat)
  numWords : Nat
  deriving DecidableEq, Repr

structure game_t where
  state : gameState_t
  points : Int
  guessedWords : List (List Nat)
  guessedWordsNum : Nat
  lastWordT : lastWord_t
  currentWord : List Nat
  currentWordSize : Nat
  validCharList : List Nat
  timeLeft : Int
  lastTime : Int
  screen_width : Int
  screen_height : Int
  assets : assets_t
  deriving DecidableEq, Repr

/-! ## The C library functions the program calls -/

/-- C `strlen`: the number of bytes before the first `0`; `none` when the
buffer holds no `0`. -/
def strlen : List Nat → Option Nat
  | [] => none
  | c :: s => if c = 0 then some 0 else (strlen s).map (· + 1)

/-- C `strcmp`: `0` when both strings are equal, the difference of the first
two bytes that differ otherwise; `none` when a buffer ends before the
comparison does. -/
def strcmp : List Nat → List Nat → Option Int
  | a :: s, b :: t =>
    if a ≠ b then some ((a : Int) - (b : Int))
    else if a = 0 then some 0
    else strcmp s t
  | _, _ => none

/-- C `strcpy dst src`: the bytes of `src` up to and including its
terminator overwrite the start of `dst`; `none` when `src` has no
terminator or `dst` is too short. -/
def strcpy : List Nat → List Nat → Option (List Nat)
  | _ :: ds, c :: cs =>
    if c = 0 then some (0 :: ds) else (strcpy ds cs).map (c :: ·)
  | _, _ => none

/-- C `memset buf c n`: the first `n` cells become `c`; `none` when the
buffer has fewer than `n` cells. -/
def memset (buf : List Nat) (c : Nat) (n : Nat) : Option (List Nat) :=
  if n ≤ buf.length then some (List.replicate n c ++ buf.drop n) else none

/-- C `strrchr s c`: the index of the last occurrence of `c` in the string
`s` (terminator included), `some none` for the null pointer. -/
def strrchr : List Nat → Nat → Option (Option Nat)
  | [], _ => none
  | a :: s, c =>
    if a = 0 then some (if c = 0 then some 0 else none)
    else
      match strrchr s c with
      | none => none
      | some (some i) => some (some (i + 1))
      | some none => some (if a = c then some 0 else none)

/-- C `isalpha` in the "C" locale, for the values the program passes (key
codes below 127; SDL key codes are not negative). -/
def isalpha (ch : Int) : Bool :=
  (65 ≤ ch && ch ≤ 90) || (97 ≤ ch && ch ≤ 122)

/-- C `toupper` in the "C" locale. -/
def toupper (ch : Int) : Int :=
  if 97 ≤ ch ∧ ch ≤ 122 then ch - 32 else ch

/-- The string held by a buffer: its bytes before the first `0`. -/
def cstr (s : List Nat) : List Nat := s.takeWhile (· ≠ 0)

/-! ## `randomVocal`, `randomConsonant` -/

/-- The function `randomVocal`: `vocals[rand()%5]`, `rand` being the value
returned by `rand()`. -/
def randomVocal (rand : Nat) : Option Nat := vocals[rand % 5]?

/-- The function `randomConsonant`: `consonants[rand()%strlen(consonants)]`. -/
def randomConsonant (rand : Nat) : Option Nat := do
  let n ← strlen consonants
  if n = 0 then none else consonants[rand % n]?

/-! ## `checkWordAndPlay` -/

/-- The two search loops of `checkWordAndPlay`:
`for(i = 0; i < n; i++) if(strcmp(word, rows[i]) == 0) { found = true; break; }`
where `rows` is the table from index `i` on and `n` the number of rows
still to visit. -/
def searchWord (word : List Nat) : List (List Nat) → Nat → Option Bool
  | _, 0 => some false
  | [], _ + 1 => none
  | r :: rs, n + 1 =>
    match strcmp word r with
    | none => none
    | some d => if d = 0 then some true else searchWord word rs n

/-- The function `checkWordAndPlay`. -/
def checkWordAndPlay (game : game_t) : Option (game_t × List audios_t) := do
  -- check the word is at least 2 characters long
  let len ← strlen game.currentWord
  if len > 1 then
    -- copy the word in a local backup (`char word[MAX_WORD_SIZE]`; the cells of
    -- the local array after the terminator are never read)
    let word ← strcpy (List.replicate MAX_WORD_SIZE 0) game.currentWord
    -- reset the word
    let cleared ← memset game.currentWord 0 MAX_WORD_SIZE
    let game := { game with currentWord := cleared, currentWordSize := 0 }
    -- check that the word is a valid word
    let valid ← searchWord word game.assets.words game.assets.numWords
    if valid then
      -- if it is valid check that it hasn't been already used
      let used ← searchWord word game.guessedWords game.guessedWordsNum
      if !used then
        -- add the word to the used words list
        let row ← game.guessedWords[game.guessedWordsNum]?
        let row ← strcpy row word
        let game := { game with
          guessedWords := game.guessedWords.set game.guessedWordsNum row,
          guessedWordsNum := game.guessedWordsNum + 1 }
        -- calculate the points of the word based on the length
        let n ← strlen word
        let game := { game with points := game.points +
          (match n with
            | 2 | 3 | 4 => 1
            | 5 => 2
            | 6 => 3
            | 7 => 5
            | _ => 11) }
        -- set last word state
        some ({ game with lastWordT := .LAST_WORD_VALID }, [.AUDIO_CORRECT])
      else
        some ({ game with lastWordT := .LAST_WORD_INVALID }, [.AUDIO_INCORRECT])
    else
      some ({ game with lastWordT := .LAST_WORD_INVALID }, [.AUDIO_INCORRECT])
  else
    some (game, [])

/-! ## `findValidWord` -/

/-- The innermost loop of `findValidWord`:
`for(k = 0; k < n; k++) if(c == validCharList[k]) { charFound = true; break; }`
with `pool` the list from index `k` on. -/
def charFound (c : Nat) : List Nat → Nat → Option Bool
  | _, 0 => some false
  | [], _ + 1 => none
  | p :: ps, n + 1 => if c = p then some true else charFound c ps n

/-- The middle loop of `findValidWord`: every one of the next `n` bytes of
the row is looked up in the pool; the loop stops at the first byte that is
not found. -/
def allCharsFound (validCharList : List Nat) : List Nat → Nat → Option Bool
  | _, 0 => some true
  | [], _ + 1 => none
  | c :: cs, n + 1 =>
    match charFound c validCharList NUM_AVAILABLE_CHARS with
    | none => none
    | some false => some false
    | some true => allCharsFound validCharList cs n

/-- The outer loop of `findValidWord` over the next `n` rows, with the
running maximum `lenM` and the output buffer `word`. -/
def findValidWordLoop (validCharList : List Nat) :
    List (List Nat) → Nat → Nat → List Nat → Option (List Nat)
  | _, 0, _, word => some word
  | [], _ + 1, _, _ => none
  | r :: rs, n + 1, lenM, word =>
    match strlen r with
    | none => none
    | some len =>
      -- if the length of the current word is longer
      if len > lenM then
        -- check that all the characters of the word are valid
        match allCharsFound validCharList r len with
        | none => none
        | some true =>
          -- if the word is still valid, set it as the longest word
          match strcpy word r with
          | none => none
          | some word1 => findValidWordLoop validCharList rs n len word1
        | some false => findValidWordLoop validCharList rs n lenM word
      else findValidWordLoop validCharList rs n lenM word

/-- The function `findValidWord(game, word)`: returns the contents of the
output buffer `word` after the call. -/
def findValidWord (game : game_t) (word : List Nat) : Option (List Nat) :=
  findValidWordLoop game.validCharList game.assets.words game.assets.numWords 0 word

/-! ## The main loop -/

inductive windowEvent_t where
  | SDL_WINDOWEVENT_RESIZED
  | SDL_WINDOWEVENT_OTHER
  deriving DecidableEq, Repr

/-- The polled event, with the parts of it the loop reads.  For a resize the
sizes are the ones `SDL_GetWindowSize` reports. -/
inductive SDL_Event where
  | SDL_QUIT
  | SDL_WINDOWEVENT (event : windowEvent_t) (width height : Int)
  | SDL_KEYDOWN (sym : Int)
  | SDL_OTHER
  deriving DecidableEq, Repr

/-- The variables of `main` that live across iterations of the loop: the
game structure and the local `before`, which holds no value until the
first assignment. -/
structure main_t where
  game : game_t
  before : Option Int
  deriving DecidableEq, Repr

/-- The timer block at the head of the loop body, `actual` being the value
of `time(NULL)`. -/
def timerTick (m : main_t) (actual : Int) : Option (main_t × List audios_t) :=
  if m.game.state = .GAME_STATE_RUNNING then
    match m.before with
    | none => none
    | some before =>
      -- decrement the time every second
      let game : game_t := { m.game with timeLeft := m.game.timeLeft - (actual - before) }
      -- if the time has ended, end the game
      let game : game_t :=
        if game.timeLeft < 1 then { game with state := .GAME_STATE_ENDED } else game
      -- play the sound, once the "tic" and once the "tac"
      let sounds :=
        if game.lastTime > game.timeLeft then
          if game.lastTime % 2 = 0 then [audios_t.AUDIO_TIC] else [audios_t.AUDIO_TAC]
        else []
      some ({ game := { game with lastTime := game.timeLeft }, before := some actual }, sounds)
  else some (m, [])

/-- The case `SDL_KEYDOWN` of the event switch: `sym` is the pressed key,
`rand` the value of `rand()` and `now` the value of `time(NULL)`, for the
branches that call them. -/
def keyDown (m : main_t) (sym : Int) (rand : Nat) (now : Int) :
    Option (main_t × List audios_t) :=
  let game := m.game
  match game.state with
  | .GAME_STATE_LOADING =>
    if sym = SDLK_RETURN then
      some ({ m with game := { game with state := .GAME_STATE_CHOOSING_LETTERS } }, [])
    else if sym = SDLK_q then
      some ({ m with game := { game with state := .GAME_STATE_CLOSE } }, [])
    else some (m, [])
  | .GAME_STATE_CHOOSING_LETTERS =>
    if sym = SDLK_1 ∨ sym = SDLK_2 then do
      -- generate random char based on the pressed character
      let ch ← (if sym = SDLK_1 then randomVocal rand else randomConsonant rand)
      -- add the generated character to the list
      let i ← strlen game.validCharList
      if i < game.validCharList.length then
        let game := { game with validCharList := game.validCharList.set i ch }
        -- if the user has selected the type for every letter
        let n ← strlen game.validCharList
        if n = NUM_AVAILABLE_CHARS then
          some ({ game := { game with state := .GAME_STATE_RUNNING }, before := some now }, [])
        else some ({ m with game := game }, [])
      else none
    else some (m, [])
  | .GAME_STATE_RUNNING =>
    if sym = SDLK_RETURN then do
      let (game, sounds) ← checkWordAndPlay game
      some ({ m with game := game }, sounds)
    else if sym = SDLK_BACKSPACE then
      -- delete last inserted char if there is any
      if game.currentWordSize > 0 then
        let size := game.currentWordSize - 1
        if size < game.currentWord.length then
          some ({ m with game := { game with
            currentWord := game.currentWord.set size 0, currentWordSize := size } }, [])
        else none
      else some (m, [])
    else
      let ch := sym
      -- check if ch is a letter
      if ch < 127 ∧ isalpha ch then
        -- verify that the inserted word hasn't reached the max length
        if game.currentWordSize < MAX_WORD_SIZE then do
          -- check that the charachter is in the available list
          let p ← strrchr game.validCharList (toupper ch).toNat
          if p ≠ none then
            -- add character to end of word
            if game.currentWordSize < game.currentWord.length then
              some ({ m with game := { game with
                currentWord := game.currentWord.set game.currentWordSize (toupper ch).toNat,
                currentWordSize := game.currentWordSize + 1 } }, [])
            else none
          else some (m, [.AUDIO_INCORRECT])
        else some (m, [.AUDIO_INCORRECT])
      else some (m, [])
  | .GAME_STATE_ENDED =>
    -- close the game if the player presses enter in the final window
    if sym = SDLK_RETURN then
      some ({ m with game := { game with state := .GAME_STATE_CLOSE } }, [])
    else some (m, [])
  | .GAME_STATE_CLOSE => some (m, [])

/-- One iteration of the event loop `while(SDL_PollEvent(&event))`. -/
def handleEvent (m : main_t) (event : SDL_Event) (rand : Nat) (now : Int) :
    Option (main_t × List audios_t) :=
  match event with
  | .SDL_QUIT =>
    -- set state when window is closed
    some ({ m with game := { m.game with state := .GAME_STATE_CLOSE } }, [])
  | .SDL_WINDOWEVENT .SDL_WINDOWEVENT_RESIZED width height =>
    -- update game window size in case of resize
    some ({ m with game := { m.game with screen_width := width, screen_height := height } }, [])
  | .SDL_WINDOWEVENT .SDL_WINDOWEVENT_OTHER _ _ => some (m, [])
  | .SDL_KEYDOWN sym => keyDown m sym rand now
  | .SDL_OTHER => some (m, [])

/-- What one step of the loop consumes: a pass through the timer block, or
one polled event together with the values `rand()` and `time(NULL)` would
return while it is handled. -/
inductive Input where
  | tick (actual : Int)
  | event (event : SDL_Event) (rand : Nat) (now : Int)
  deriving DecidableEq, Repr

/-- One step of the main loop. -/
def step (m : main_t) : Input → Option (main_t × List audios_t)
  | .tick actual => timerTick m actual
  | .event e rand now => handleEvent m e rand now

/-- The state `main` enters its loop with: `game_t game = {0}`, then
`timeLeft`, `screen_width`, `screen_height` and the loaded assets. -/
def initialGame (assets : assets_t) : game_t :=
  { state := .GAME_STATE_LOADING
    points := 0
    guessedWords := List.replicate MAX_GUESSED_WORDS (List.replicate MAX_WORD_SIZE 0)
    guessedWordsNum := 0
    lastWordT := .LAST_WORD_NONE
    currentWord := List.replicate MAX_WORD_SIZE 0
    currentWordSize := 0
    validCharList := List.replicate (NUM_AVAILABLE_CHARS + 1) 0
    timeLeft := TIME_MAX
    lastTime := 0
    screen_width := SCREEN_DEFAULT_WIDTH
    screen_height := SCREEN_DEFAULT_HEIGHT
    assets := assets }

def initialMain (assets : assets_t) : main_t :=
  { game := initialGame assets, before := none }

/-- The states the loop can be in: the initial one and every state a
defined step leads to.  An iteration of the loop of `main` is one `tick`
step followed by one `event` step per polled event, so every state of an
execution with defined behaviour is reachable in this sense. -/
inductive Reachable (assets : assets_t) : main_t → Prop where
  | init : Reachable assets (initialMain assets)
  | step {m m1 : main_t} {sounds : List audios_t} (i : Input) :
      Reachable assets m → step m i = some (m1, sounds) → Reachable assets m1

/-- Running the loop over a list of inputs. -/
def run (m : main_t) : List Input → Option main_t
  | [] => some m
  | i :: is =>
    match step m i with
    | none => none
    | some (m1, _) => run m1 is

/-! ## Views of the state used by the statements -/

/-- The dimensions the C declarations give the word table: the rows in use
exist and every row has `MAX_WORD_SIZE` cells. -/
def assets_t.sized (a : assets_t) : Prop :=
  a.numWords ≤ a.words.length ∧ ∀ r ∈ a.words, r.length = MAX_WORD_SIZE

/-- The dimensions the C declarations give the arrays of `game_t`. -/
def game_t.sized (g : game_t) : Prop :=
  g.currentWord.length = MAX_WORD_SIZE ∧
  g.validCharList.length = NUM_AVAILABLE_CHARS + 1 ∧
  g.guessedWords.length = MAX_GUESSED_WORDS ∧
  (∀ r ∈ g.guessedWords, r.length = MAX_WORD_SIZE) ∧
  g.assets.sized

instance (a : assets_t) : Decidable a.sized := by
  unfold assets_t.sized; infer_instance

instance (g : game_t) : Decidable g.sized := by
  unfold game_t.sized; infer_instance

/-- The dictionary: the strings held by the rows in use, in table order. -/
def dictionary (a : assets_t) : List (List Nat) :=
  (a.words.take a.numWords).map cstr

/-- The guessed-word list: the strings held by the first `guessedWordsNum`
rows of `guessedWords`. -/
def guessed (g : game_t) : List (List Nat) :=
  (g.guessedWords.take g.guessedWordsNum).map cstr

/-- The score table of the specification: the points a word of length `n`
is worth. -/
def lengthBucket (n : Nat) : Int :=
  if n ≤ 4 then 1 else if n = 5 then 2 else if n = 6 then 3 else if n = 7 then 5 else 11

/-- The game after the player has entered the string of `buf` again:
`currentWord` holds `buf` and `currentWordSize` its length. -/
def reenter (g : game_t) (buf : List Nat) : game_t :=
  { g with currentWord := buf, currentWordSize := (cstr buf).length }

/-- The game after `k` further rounds of entering the string of `buf` and
submitting it with `checkWordAndPlay`. -/
def resubmit (buf : List Nat) : Nat → game_t → Option game_t
  | 0, g => some g
  | k + 1, g =>
    match checkWordAndPlay (reenter g buf) with
    | none => none
    | some (g1, _) => resubmit buf k g1

/-- Every byte of the string `w` is one of the `NUM_AVAILABLE_CHARS` letters
of the pool (the pool read as a set: a letter may be used more than once). -/
def inPool (validCharList : List Nat) (w : List Nat) : Prop :=
  ∀ c ∈ w, c ∈ validCharList.take NUM_AVAILABLE_CHARS

instance (validCharList w : List Nat) : Decidable (inPool validCharList w) := by
  unfold inPool; infer_instance

/-- Every row in use of the word table holds a terminated string, as
`loadText` leaves it. -/
def assets_t.terminated (a : assets_t) : Prop :=
  ∀ r ∈ a.words.take a.numWords, 0 ∈ r

instance (a : assets_t) : Decidable a.terminated := by
  unfold assets_t.terminated; infer_instance

/-- The position of a phase in the order
Loading < ChoosingLetters < Running < Ended < Close. -/
def phaseRank : gameState_t → Nat
  | .GAME_STATE_LOADING => 0
  | .GAME_STATE_CHOOSING_LETTERS => 1
  | .GAME_STATE_RUNNING => 2
  | .GAME_STATE_ENDED => 3
  | .GAME_STATE_CLOSE => 4

/-- The pool buffer that holds the letters `letters`: the letters followed
by zero cells up to `NUM_AVAILABLE_CHARS + 1`. -/
def poolOf (letters : List Nat) : List Nat :=
  letters ++ List.replicate (NUM_AVAILABLE_CHARS + 1 - letters.length) 0

/-- The invariant of the letter pool: the buffer holds at most
`NUM_AVAILABLE_CHARS` letters followed by zeros, none while loading, fewer
than `NUM_AVAILABLE_CHARS` while choosing, exactly that many while running
and after the end. -/
structure PoolInv (m : main_t) : Prop where
  letters : ∃ letters : List Nat, 0 ∉ letters ∧
    letters.length ≤ NUM_AVAILABLE_CHARS ∧
    m.game.validCharList = poolOf letters ∧
    (m.game.state = .GAME_STATE_LOADING → letters.length = 0) ∧
    (m.game.state = .GAME_STATE_CHOOSING_LETTERS → letters.length < NUM_AVAILABLE_CHARS) ∧
    (m.game.state = .GAME_STATE_RUNNING ∨ m.game.state = .GAME_STATE_ENDED →
      letters.length = NUM_AVAILABLE_CHARS)

/-- The invariant of the guessed words and the score: the arrays have their
declared dimensions, the assets are the loaded ones, the count is within
the array, the guessed words are pairwise distinct dictionary words and the
score is at most 11 points per guessed word. -/
structure WordsInv (assets : assets_t) (m : main_t) : Prop where
  sized : m.game.sized
  assets_eq : m.game.assets = assets
  num_le : m.game.guessedWordsNum ≤ MAX_GUESSED_WORDS
  nodup : (guessed m.game).Nodup
  sub : ∀ w ∈ guessed m.game, w ∈ dictionary assets
  points_nonneg : 0 ≤ m.game.points
  points_le : m.game.points ≤ 11 * (m.game.guessedWordsNum : Int)

/-! ## Example data -/

/-- A row of `MAX_WORD_SIZE` cells holding the string `w`, zero elsewhere. -/
def rowOf (w : List Nat) : List Nat := w ++ List.replicate (MAX_WORD_SIZE - w.length) 0

/-- The word "CIBO". -/
def CIBO : List Nat := [67, 73, 66, 79]

/-- The word "ABICO". -/
def ABICO : List Nat := [65, 66, 73, 67, 79]

/-- A word table with the two rows "CIBO" and "ABICO". -/
def exampleAssets : assets_t := { words := [rowOf CIBO, rowOf ABICO], numWords := 2 }

/-- The pool "AEIOUBCDFG" with its terminator. -/
def examplePool : List Nat := [65, 69, 73, 79, 85, 66, 67, 68, 70, 71, 0]

/-- A running game over `exampleAssets` with the pool "AEIOUBCDFG" and
nothing typed yet. -/
def exampleRunning : game_t :=
  { initialGame exampleAssets with state := .GAME_STATE_RUNNING, validCharList := examplePool }

/-- The game `exampleRunning` after "CIBO" has been typed. -/
def exampleTyped : game_t :=
  { exampleRunning with currentWord := rowOf CIBO, currentWordSize := 4 }

/-- The key-down event of a key, with the values `rand()` and `time(NULL)`
would return. -/
def key (sym : Int) (rand : Nat) (now : Int) : Input :=
  .event (.SDL_KEYDOWN sym) rand now

/-- Enter, then five vowel draws and five consonant draws whose `rand()`
values select "AEIOUBCDFG". -/
def exampleDraws : List Input :=
  [key SDLK_RETURN 0 0,
   key SDLK_1 0 0, key SDLK_1 1 0, key SDLK_1 2 0, key SDLK_1 3 0, key SDLK_1 4 0,
   key SDLK_2 0 0, key SDLK_2 1 0, key SDLK_2 2 0, key SDLK_2 3 0, key SDLK_2 4 1000]

/-- The keys c, i, b, o and Enter. -/
def exampleSubmit : List Input :=
  [key 99 0 0, key 105 0 0, key 98 0 0, key 111 0 0, key SDLK_RETURN 0 0]

/-- The loop state after `exampleDraws`: the game `exampleRunning`, with
`before` set by the last draw. -/
def exampleMain : main_t := { game := exampleRunning, before := some 1000 }

/-- The loop state after `exampleDraws` and `exampleSubmit`: "CIBO" is the
one guessed word and is worth one point. -/
def exampleSubmitted : main_t :=
  { game := { exampleRunning with
      points := 1
      guessedWords := exampleRunning.guessedWords.set 0 (rowOf CIBO)
      guessedWordsNum := 1
      lastWordT := .LAST_WORD_VALID },
    before := some 1000 }

/-- The word "BACI". -/
def BACI : List Nat := [66, 65, 67, 73]

/-- An ended game whose word table holds only "ABICO", with the pool
"AEIOUBCDFG". -/
def exampleEnded : game_t :=
  { initialGame { words := [rowOf ABICO], numWords := 1 } with
    state := .GAME_STATE_ENDED, validCharList := examplePool }

/-- An ended game whose word table holds "CIBO" and "BACI", two usable words
of the same length, and "ABICO" cut off by `numWords`. -/
def exampleTie : game_t :=
  { initialGame { words := [rowOf CIBO, rowOf BACI, rowOf ABICO], numWords := 2 } with
    state := .GAME_STATE_ENDED, validCharList := examplePool }

/-- The keys c, i, b, o. -/
def exampleType : List Input := [key 99 0 0, key 105 0 0, key 98 0 0, key 111 0 0]

/-- The loop state after `exampleDraws` and `exampleType`: the game
`exampleTyped`, in which "CIBO" is typed and not yet submitted. -/
def exampleTypedMain : main_t := { game := exampleTyped, before := some 1000 }

/-! ## A game that fills the guessed-word list -/

/-- The letter at index `k` of the pool "AEIOUBCDFG". -/
def poolLetter (k : Nat) : Nat := examplePool.getD k 0

/-- The two-letter word number `k` over the pool "AEIOUBCDFG": "AA", "AE",
..., one word for each `k` below 100. -/
def pairWord (k : Nat) : List Nat := [poolLetter (k / 10), poolLetter (k % 10)]

/-- A word table whose 65 rows hold the first 65 two-letter words. -/
def pairAssets : assets_t :=
  { words := (List.range 65).map (fun k => rowOf (pairWord k)), numWords := 65 }

/-- The keys that type the two-letter word number `k` (SDL sends the codes
of the small letters). -/
def typePair (k : Nat) : List Input :=
  [key ((poolLetter (k / 10) : Int) + 32) 0 0, key ((poolLetter (k % 10) : Int) + 32) 0 0]

/-- Typing and submitting the two-letter words number 0 to `n - 1`. -/
def submitPairs : Nat → List Input
  | 0 => []
  | n + 1 => submitPairs n ++ typePair n ++ [key SDLK_RETURN 0 0]

/-- The key a, pressed `n` times. -/
def typeA (n : Nat) : List Input := List.replicate n (key 97 0 0)

/-! ## Invariants of the current word and of the letters of the guessed words -/

/-- The invariant of the current word: the buffer holds the typed letters
followed by zero cells, `currentWordSize` is their number, at most
`MAX_WORD_SIZE`, every one is a capital letter of the pool, and nothing is
typed before the Running phase. -/
structure TypedInv (m : main_t) : Prop where
  typed : ∃ typed : List Nat, m.game.currentWord = rowOf typed ∧
    m.game.currentWordSize = typed.length ∧ typed.length ≤ MAX_WORD_SIZE ∧
    (∀ c ∈ typed, 65 ≤ c ∧ c ≤ 90 ∧ c ∈ cstr m.game.validCharList) ∧
    (m.game.state = .GAME_STATE_LOADING ∨ m.game.state = .GAME_STATE_CHOOSING_LETTERS →
      typed = [])

/-- The invariant of the letters of the guessed words: every guessed word
has at least two letters, all of them in the pool, and no word is guessed
before the Running phase. -/
structure GuessedInv (m : main_t) : Prop where
  letters : ∀ w ∈ guessed m.game, 2 ≤ w.length ∧ ∀ c ∈ w, c ∈ cstr m.game.validCharList
  empty_before : m.game.state = .GAME_STATE_LOADING ∨
    m.game.state = .GAME_STATE_CHOOSING_LETTERS → guessed m.game = []

/-! # Theorems -/

/-! ## The C string functions -/

theorem cstr_nil : cstr [] = [] := rfl

theorem cstr_cons_zero (s : List Nat) : cstr (0 :: s) = [] := by
  simp [cstr, List.takeWhile]

theorem cstr_cons_ne {c : Nat} (hc : c ≠ 0) (s : List Nat) :
    cstr (c :: s) = c :: cstr s := by
  simp [cstr, List.takeWhile, hc]

theorem zero_not_mem_cstr (s : List Nat) : 0 ∉ cstr s := by
  intro h
  have := List.mem_takeWhile_imp h
  simp at this

theorem cstr_append_zero {w : List Nat} (hw : 0 ∉ w) (rest : List Nat) :
    cstr (w ++ 0 :: rest) = w := by
  induction w with
  | nil => exact cstr_cons_zero rest
  | cons c w ih =>
    have hc : c ≠ 0 := fun h => hw (by simp [h])
    have hw1 : 0 ∉ w := fun h => hw (by simp [h])
    rw [List.cons_append, cstr_cons_ne hc, ih hw1]

theorem strlen_append_zero {w : List Nat} (hw : 0 ∉ w) (rest : List Nat) :
    strlen (w ++ 0 :: rest) = some w.length := by
  induction w with
  | nil => simp [strlen]
  | cons c w ih =>
    have hc : c ≠ 0 := fun h => hw (by simp [h])
    have hw1 : 0 ∉ w := fun h => hw (by simp [h])
    simp [strlen, hc, ih hw1]

/-- A buffer whose `strlen` is defined splits into its string, the
terminator and the cells after it. -/
theorem strlen_spec {s : List Nat} {n : Nat} (h : strlen s = some n) :
    s = cstr s ++ 0 :: s.drop (n + 1) ∧ (cstr s).length = n ∧ n < s.length := by
  induction s generalizing n with
  | nil => simp [strlen] at h
  | cons c s ih =>
    by_cases hc : c = 0
    · subst hc
      simp [strlen] at h
      subst h
      simp [cstr_cons_zero]
    · simp only [strlen, hc, if_false, Option.map_eq_some'] at h
      obtain ⟨k, hk, rfl⟩ := h
      obtain ⟨h1, h2, h3⟩ := ih hk
      rw [cstr_cons_ne hc]
      refine ⟨?_, by simp [h2], by simp [h3]⟩
      simp only [List.cons_append, List.drop_succ_cons]
      rw [← h1]

theorem strlen_eq_some_iff {s : List Nat} {n : Nat} :
    strlen s = some n ↔ ∃ rest, s = cstr s ++ 0 :: rest ∧ (cstr s).length = n := by
  constructor
  · intro h
    exact ⟨_, (strlen_spec h).1, (strlen_spec h).2.1⟩
  · rintro ⟨rest, h1, h2⟩
    rw [h1, strlen_append_zero (zero_not_mem_cstr s), h2]

theorem strcpy_spec {src : List Nat} {n : Nat} (h : strlen src = some n) :
    ∀ dst : List Nat, n < dst.length →
      strcpy dst src = some (cstr src ++ 0 :: dst.drop (n + 1)) := by
  induction src generalizing n with
  | nil => simp [strlen] at h
  | cons c s ih =>
    intro dst hd
    cases dst with
    | nil => simp at hd
    | cons d ds =>
      by_cases hc : c = 0
      · subst hc
        simp [strlen] at h
        subst h
        simp [strcpy, cstr_cons_zero]
      · simp only [strlen, hc, if_false, Option.map_eq_some'] at h
        obtain ⟨k, hk, rfl⟩ := h
        have hd1 : k < ds.length := by simpa using hd
        simp [strcpy, hc, ih hk ds hd1, cstr_cons_ne hc]

theorem strcpy_none_of_short {src : List Nat} {n : Nat} (h : strlen src = some n) :
    ∀ dst : List Nat, dst.length ≤ n → strcpy dst src = none := by
  induction src generalizing n with
  | nil => simp [strlen] at h
  | cons c s ih =>
    intro dst hd
    cases dst with
    | nil => simp [strcpy]
    | cons d ds =>
      by_cases hc : c = 0
      · subst hc
        simp [strlen] at h
        subst h
        simp at hd
      · simp only [strlen, hc, if_false, Option.map_eq_some'] at h
        obtain ⟨k, hk, rfl⟩ := h
        have hd1 : ds.length ≤ k := by simpa using hd
        simp [strcpy, hc, ih hk ds hd1]

theorem strcmp_spec {a : List Nat} {n : Nat} (h : strlen a = some n) :
    ∀ b : List Nat, n < b.length →
      ∃ d, strcmp a b = some d ∧ (d = 0 ↔ cstr a = cstr b) := by
  induction a generalizing n with
  | nil => simp [strlen] at h
  | cons x s ih =>
    intro b hb
    cases b with
    | nil => simp at hb
    | cons y t =>
      by_cases hxy : x = y
      · subst hxy
        by_cases hx : x = 0
        · subst hx
          exact ⟨0, by simp [strcmp], by simp [cstr_cons_zero]⟩
        · simp only [strlen, hx, if_false, Option.map_eq_some'] at h
          obtain ⟨k, hk, rfl⟩ := h
          have hb1 : k < t.length := by simpa using hb
          obtain ⟨d, hd, hiff⟩ := ih hk t hb1
          refine ⟨d, by simp [strcmp, hx, hd], ?_⟩
          rw [cstr_cons_ne hx, cstr_cons_ne hx, hiff]
          simp
      · refine ⟨(x : Int) - (y : Int), by simp [strcmp, hxy], ?_⟩
        have hne : (x : Int) - (y : Int) ≠ 0 := by
          intro h0
          apply hxy
          omega
        constructor
        · intro h0; exact absurd h0 hne
        · intro hc
          exfalso
          by_cases hx : x = 0
          · subst hx
            have hy : y ≠ 0 := fun h => hxy h.symm
            rw [cstr_cons_zero, cstr_cons_ne hy] at hc
            simp at hc
          · by_cases hy : y = 0
            · subst hy
              rw [cstr_cons_zero, cstr_cons_ne hx] at hc
              simp at hc
            · rw [cstr_cons_ne hx, cstr_cons_ne hy] at hc
              simp at hc
              exact hxy hc.1

theorem searchWord_spec {word : List Nat} {n : Nat} (h : strlen word = some n) :
    ∀ (rows : List (List Nat)) (k : Nat), k ≤ rows.length →
      (∀ r ∈ rows.take k, n < r.length) →
      searchWord word rows k = some (decide (cstr word ∈ (rows.take k).map cstr)) := by
  intro rows k
  induction k generalizing rows with
  | zero => intro _ _; simp [searchWord]
  | succ k ih =>
    intro hk hr
    cases rows with
    | nil => simp at hk
    | cons r rs =>
      have hk1 : k ≤ rs.length := by simpa using hk
      have hr0 : n < r.length := hr r (by simp)
      have hr1 : ∀ r1 ∈ rs.take k, n < r1.length := fun r1 h1 => hr r1 (by simp [h1])
      obtain ⟨d, hd, hiff⟩ := strcmp_spec h r hr0
      simp only [searchWord, hd]
      by_cases hd0 : d = 0
      · have := hiff.1 hd0
        simp [hd0, this]
      · have hne : cstr word ≠ cstr r := fun hc => hd0 (hiff.2 hc)
        simp [hd0, ih rs hk1 hr1, hne]

/-! ## `checkWordAndPlay` -/

theorem memset_sized {buf : List Nat} (h : buf.length = MAX_WORD_SIZE) :
    memset buf 0 MAX_WORD_SIZE = some (List.replicate MAX_WORD_SIZE 0) := by
  simp [memset, h]

/-- The local copy `word` that `checkWordAndPlay` makes. -/
theorem local_word {g : game_t} {n : Nat} (hs : g.sized) (hn : strlen g.currentWord = some n) :
    ∃ word, strcpy (List.replicate MAX_WORD_SIZE 0) g.currentWord = some word ∧
      strlen word = some n ∧ cstr word = cstr g.currentWord ∧ n < MAX_WORD_SIZE := by
  obtain ⟨h1, h2, h3⟩ := strlen_spec hn
  have hlt : n < MAX_WORD_SIZE := by rw [← hs.1]; exact h3
  refine ⟨_, strcpy_spec hn _ (by simpa using hlt), ?_, ?_, hlt⟩
  · rw [strlen_append_zero (zero_not_mem_cstr _), h2]
  · rw [cstr_append_zero (zero_not_mem_cstr _)]

theorem searchWord_dictionary {g : game_t} {word : List Nat} {n : Nat} (hs : g.sized)
    (hw : strlen word = some n) (hlt : n < MAX_WORD_SIZE) :
    searchWord word g.assets.words g.assets.numWords
      = some (decide (cstr word ∈ dictionary g.assets)) := by
  apply searchWord_spec hw _ _ hs.2.2.2.2.1
  intro r hr
  rw [hs.2.2.2.2.2 r (List.mem_of_mem_take hr)]
  exact hlt

theorem searchWord_guessed {g : game_t} {word : List Nat} {n : Nat} (hs : g.sized)
    (hw : strlen word = some n) (hlt : n < MAX_WORD_SIZE)
    (hnum : g.guessedWordsNum ≤ MAX_GUESSED_WORDS) :
    searchWord word g.guessedWords g.guessedWordsNum
      = some (decide (cstr word ∈ guessed g)) := by
  apply searchWord_spec hw _ _ (by rw [hs.2.2.1]; exact hnum)
  intro r hr
  rw [hs.2.2.2.1 r (List.mem_of_mem_take hr)]
  exact hlt

theorem checkWordAndPlay_short {g : game_t} {n : Nat}
    (hn : strlen g.currentWord = some n) (h1 : n ≤ 1) :
    checkWordAndPlay g = some (g, []) := by
  have : ¬ n > 1 := by omega
  simp [checkWordAndPlay, hn, this]

theorem checkWordAndPlay_not_in_dictionary {g : game_t} {n : Nat} (hs : g.sized)
    (hn : strlen g.currentWord = some n) (h2 : 2 ≤ n)
    (hd : cstr g.currentWord ∉ dictionary g.assets) :
    checkWordAndPlay g = some ({ g with
      currentWord := List.replicate MAX_WORD_SIZE 0, currentWordSize := 0,
      lastWordT := .LAST_WORD_INVALID }, [.AUDIO_INCORRECT]) := by
  obtain ⟨word, hcp, hwl, hwc, hlt⟩ := local_word hs hn
  have hgt : n > 1 := by omega
  have hsd := searchWord_dictionary hs hwl hlt
  simp [checkWordAndPlay, hn, hgt, hcp, memset_sized hs.1, hsd, hwc, hd]

theorem checkWordAndPlay_used {g : game_t} {n : Nat} (hs : g.sized)
    (hn : strlen g.currentWord = some n) (h2 : 2 ≤ n)
    (hnum : g.guessedWordsNum ≤ MAX_GUESSED_WORDS)
    (hd : cstr g.currentWord ∈ dictionary g.assets)
    (hu : cstr g.currentWord ∈ guessed g) :
    checkWordAndPlay g = some ({ g with
      currentWord := List.replicate MAX_WORD_SIZE 0, currentWordSize := 0,
      lastWordT := .LAST_WORD_INVALID }, [.AUDIO_INCORRECT]) := by
  obtain ⟨word, hcp, hwl, hwc, hlt⟩ := local_word hs hn
  have hgt : n > 1 := by omega
  have hsd := searchWord_dictionary hs hwl hlt
  have hsg := searchWord_guessed hs hwl hlt hnum
  rw [hwc] at hsd hsg
  have hsg1 : searchWord word g.guessedWords g.guessedWordsNum = some true := by
    rw [hsg]; simp [hu]
  simp [checkWordAndPlay, hn, hgt, hcp, memset_sized hs.1, hsd, hd, hsg1]

theorem checkWordAndPlay_new {g : game_t} {n : Nat} (hs : g.sized)
    (hn : strlen g.currentWord = some n) (h2 : 2 ≤ n)
    (hroom : g.guessedWordsNum < MAX_GUESSED_WORDS)
    (hd : cstr g.currentWord ∈ dictionary g.assets)
    (hu : cstr g.currentWord ∉ guessed g) :
    ∃ row, row.length = MAX_WORD_SIZE ∧ cstr row = cstr g.currentWord ∧
      checkWordAndPlay g = some ({ g with
        currentWord := List.replicate MAX_WORD_SIZE 0, currentWordSize := 0,
        guessedWords := g.guessedWords.set g.guessedWordsNum row,
        guessedWordsNum := g.guessedWordsNum + 1,
        points := g.points + lengthBucket n,
        lastWordT := .LAST_WORD_VALID }, [.AUDIO_CORRECT]) := by
  obtain ⟨word, hcp, hwl, hwc, hlt⟩ := local_word hs hn
  have hgt : n > 1 := by omega
  have hsd := searchWord_dictionary hs hwl hlt
  have hsg := searchWord_guessed hs hwl hlt (Nat.le_of_lt hroom)
  rw [hwc] at hsd hsg
  have hsg1 : searchWord word g.guessedWords g.guessedWordsNum = some false := by
    rw [hsg]; simp [hu]
  have hidx : g.guessedWordsNum < g.guessedWords.length := by rw [hs.2.2.1]; exact hroom
  have hrow : g.guessedWords[g.guessedWordsNum]? = some (g.guessedWords[g.guessedWordsNum]) :=
    List.getElem?_eq_getElem hidx
  have hrl : (g.guessedWords[g.guessedWordsNum]).length = MAX_WORD_SIZE :=
    hs.2.2.2.1 _ (List.getElem_mem _)
  have hcp2 := strcpy_spec hwl (g.guessedWords[g.guessedWordsNum]) (by rw [hrl]; exact hlt)
  refine ⟨cstr word ++ 0 :: List.drop (n + 1) g.guessedWords[g.guessedWordsNum], ?_, ?_, ?_⟩
  rotate_left 2
  · simp [checkWordAndPlay, hn, hgt, hcp, memset_sized hs.1, hsd, hd, hsg1, hrow, hcp2, hwl]
    by_cases h8 : 8 ≤ n
    · obtain ⟨k, rfl⟩ : ∃ k, n = k + 8 := ⟨n - 8, by omega⟩
      simp [lengthBucket]
    · have h7 : n ≤ 7 := by omega
      interval_cases n <;> simp [lengthBucket]
  · have := (strlen_spec hwl).2.1
    simp [hrl, this]
    omega
  · rw [cstr_append_zero (zero_not_mem_cstr _), hwc]

theorem checkWordAndPlay_full {g : game_t} {n : Nat} (hs : g.sized)
    (hn : strlen g.currentWord = some n) (h2 : 2 ≤ n)
    (hfull : g.guessedWordsNum = MAX_GUESSED_WORDS)
    (hd : cstr g.currentWord ∈ dictionary g.assets)
    (hu : cstr g.currentWord ∉ guessed g) :
    checkWordAndPlay g = none := by
  obtain ⟨word, hcp, hwl, hwc, hlt⟩ := local_word hs hn
  have hgt : n > 1 := by omega
  have hsd := searchWord_dictionary hs hwl hlt
  have hsg := searchWord_guessed hs hwl hlt (Nat.le_of_eq hfull)
  rw [hwc] at hsd hsg
  have hsg1 : searchWord word g.guessedWords g.guessedWordsNum = some false := by
    rw [hsg]; simp [hu]
  have hrow : g.guessedWords[g.guessedWordsNum]? = none := by
    apply List.getElem?_eq_none
    rw [hs.2.2.1, hfull]
  simp [checkWordAndPlay, hn, hgt, hcp, memset_sized hs.1, hsd, hd, hsg1, hrow]

theorem take_succ_set {α : Type} (rows : List α) (row : α) :
    ∀ k, k < rows.length → (rows.set k row).take (k + 1) = rows.take k ++ [row] := by
  induction rows with
  | nil => intro k hk; simp at hk
  | cons r rs ih =>
    intro k hk
    cases k with
    | zero => simp
    | succ k =>
      have hk1 : k < rs.length := by simpa using hk
      simp [ih k hk1]

theorem guessed_after_store (g : game_t) (row : List Nat)
    (hidx : g.guessedWordsNum < g.guessedWords.length) (g1 : game_t)
    (h1 : g1.guessedWords = g.guessedWords.set g.guessedWordsNum row)
    (h2 : g1.guessedWordsNum = g.guessedWordsNum + 1) :
    guessed g1 = guessed g ++ [cstr row] := by
  simp [guessed, h1, h2, take_succ_set _ _ _ hidx]

theorem lengthBucket_pos (n : Nat) : 0 < lengthBucket n := by
  unfold lengthBucket
  split_ifs <;> decide

theorem lengthBucket_le (n : Nat) : lengthBucket n ≤ 11 := by
  unfold lengthBucket
  split_ifs <;> decide

/-- C1: when the current word has length at least 2, equals a dictionary
word, is not in the guessed-word list and the list has room,
`checkWordAndPlay` adds 1 point for length 2, 3 or 4, 2 for length 5, 3 for
length 6, 5 for length 7 and 11 for length 8 or more, stores the word as the
new last guessed word (the count grows by one, earlier rows unchanged) and
sets `lastWordT` to `LAST_WORD_VALID`. -/
theorem checkWordAndPlay_scores_new_word (g : game_t) (n : Nat) (hs : g.sized)
    (hn : strlen g.currentWord = some n) (h2 : 2 ≤ n)
    (hd : cstr g.currentWord ∈ dictionary g.assets)
    (hu : cstr g.currentWord ∉ guessed g)
    (hroom : g.guessedWordsNum < MAX_GUESSED_WORDS) :
    ∃ g1 sounds, checkWordAndPlay g = some (g1, sounds) ∧
      (n = 2 ∨ n = 3 ∨ n = 4 → g1.points = g.points + 1) ∧
      (n = 5 → g1.points = g.points + 2) ∧
      (n = 6 → g1.points = g.points + 3) ∧
      (n = 7 → g1.points = g.points + 5) ∧
      (8 ≤ n → g1.points = g.points + 11) ∧
      g1.guessedWordsNum = g.guessedWordsNum + 1 ∧
      guessed g1 = guessed g ++ [cstr g.currentWord] ∧
      (∀ i, i < g.guessedWordsNum → g1.guessedWords[i]? = g.guessedWords[i]?) ∧
      g1.lastWordT = .LAST_WORD_VALID := by
  obtain ⟨row, hrl, hrc, hres⟩ := checkWordAndPlay_new hs hn h2 hroom hd hu
  have hidx : g.guessedWordsNum < g.guessedWords.length := by rw [hs.2.2.1]; exact hroom
  refine ⟨_, _, hres, ?_, ?_, ?_, ?_, ?_, rfl, ?_, ?_, rfl⟩
  · rintro (h | h | h) <;> subst h <;> rfl
  · intro h; subst h; rfl
  · intro h; subst h; rfl
  · intro h; subst h; rfl
  · intro h
    have : lengthBucket n = 11 := by
      unfold lengthBucket
      split_ifs <;> first | rfl | omega
    simp [this]
  · rw [← hrc]
    exact guessed_after_store g row hidx _ rfl rfl
  · intro i hi
    simp only
    rw [List.getElem?_set_ne (Nat.ne_of_gt hi)]
theorem reenter_sized {g : game_t} {buf : List Nat} (hs : g.sized)
    (hb : buf.length = MAX_WORD_SIZE) : (reenter g buf).sized :=
  ⟨hb, hs.2.1, hs.2.2.1, hs.2.2.2.1, hs.2.2.2.2⟩

theorem resubmit_spec {buf : List Nat} {n : Nat} (hb : buf.length = MAX_WORD_SIZE)
    (hn : strlen buf = some n) (h2 : 2 ≤ n) :
    ∀ (k : Nat) (g : game_t), g.sized → g.guessedWordsNum ≤ MAX_GUESSED_WORDS →
      cstr buf ∈ dictionary g.assets → cstr buf ∈ guessed g →
      ∃ gk, resubmit buf k g = some gk ∧ gk.points = g.points ∧
        gk.guessedWords = g.guessedWords ∧ gk.guessedWordsNum = g.guessedWordsNum ∧
        (0 < k → gk.lastWordT = .LAST_WORD_INVALID) := by
  intro k
  induction k with
  | zero => intro g _ _ _ _; exact ⟨g, rfl, rfl, rfl, rfl, fun h => absurd h (by decide)⟩
  | succ k ih =>
    intro g hs hnum hd hu
    have hres := checkWordAndPlay_used (reenter_sized hs hb)
      (show strlen (reenter g buf).currentWord = some n from hn) h2 hnum hd hu
    obtain ⟨gk, hk, hp, hw, hc, hl⟩ := ih _
      (show game_t.sized { reenter g buf with
          currentWord := List.replicate MAX_WORD_SIZE 0, currentWordSize := 0,
          lastWordT := .LAST_WORD_INVALID } from
        ⟨by simp, hs.2.1, hs.2.2.1, hs.2.2.2.1, hs.2.2.2.2⟩) hnum hd hu
    refine ⟨gk, ?_, hp, hw, hc, ?_⟩
    · simp only [resubmit, hres]
      exact hk
    · intro _
      cases k with
      | zero =>
        simp only [resubmit, Option.some.injEq] at hk
        rw [← hk]
      | succ k => exact hl (Nat.succ_pos k)

/-- C3 (as amended): a dictionary word of length at least 2 that is not yet
guessed, submitted while the guessed-word list has room
(`guessedWordsNum < MAX_GUESSED_WORDS`), is scored exactly once: the first
submission is accepted (the score rises by the bucket of its length, the
word is appended, the outcome is `LAST_WORD_VALID`), and after any number
`k` of further rounds of entering the same word and submitting it the points
and the guessed-word list are as they were after the first, with outcome
`LAST_WORD_INVALID`. -/
theorem checkWordAndPlay_scores_once (g : game_t) (n : Nat) (hs : g.sized)
    (hn : strlen g.currentWord = some n) (h2 : 2 ≤ n)
    (hd : cstr g.currentWord ∈ dictionary g.assets)
    (hu : cstr g.currentWord ∉ guessed g)
    (hroom : g.guessedWordsNum < MAX_GUESSED_WORDS) :
    ∃ g1 sounds, checkWordAndPlay g = some (g1, sounds) ∧
      g1.points = g.points + lengthBucket n ∧
      guessed g1 = guessed g ++ [cstr g.currentWord] ∧
      g1.lastWordT = .LAST_WORD_VALID ∧
      ∀ k, ∃ gk, resubmit g.currentWord k g1 = some gk ∧
        gk.points = g1.points ∧ gk.guessedWords = g1.guessedWords ∧
        gk.guessedWordsNum = g1.guessedWordsNum ∧
        (0 < k → gk.lastWordT = .LAST_WORD_INVALID) := by
  obtain ⟨row, hrl, hrc, hres⟩ := checkWordAndPlay_new hs hn h2 hroom hd hu
  have hidx : g.guessedWordsNum < g.guessedWords.length := by rw [hs.2.2.1]; exact hroom
  have hg : guessed { g with
      currentWord := List.replicate MAX_WORD_SIZE 0, currentWordSize := 0,
      guessedWords := g.guessedWords.set g.guessedWordsNum row,
      guessedWordsNum := g.guessedWordsNum + 1,
      points := g.points + lengthBucket n,
      lastWordT := .LAST_WORD_VALID } = guessed g ++ [cstr g.currentWord] := by
    rw [← hrc]
    exact guessed_after_store g row hidx _ rfl rfl
  refine ⟨_, _, hres, rfl, hg, rfl, ?_⟩
  intro k
  have hb : g.currentWord.length = MAX_WORD_SIZE := hs.1
  refine resubmit_spec hb hn h2 k _ ?_ ?_ hd ?_
  · refine ⟨by simp, hs.2.1, by simp [hs.2.2.1], ?_, hs.2.2.2.2⟩
    intro r hr
    rcases List.mem_or_eq_of_mem_set hr with h | h
    · exact hs.2.2.2.1 r h
    · rw [h]; exact hrl
  · exact hroom
  · rw [hg]; simp

/-- C4: when the current word has length 0 or 1, `checkWordAndPlay` returns
the game unchanged in every field and requests no sound. -/
theorem checkWordAndPlay_short_word_noop (g : game_t) (n : Nat)
    (hn : strlen g.currentWord = some n) (h1 : n < 2) :
    checkWordAndPlay g = some (g, []) :=
  checkWordAndPlay_short hn (by omega)
/-! ## `findValidWord` -/

theorem strlen_isSome_of_mem : ∀ {s : List Nat}, 0 ∈ s → ∃ n, strlen s = some n := by
  intro s
  induction s with
  | nil => intro h; simp at h
  | cons c s ih =>
    intro h
    by_cases hc : c = 0
    · exact ⟨0, by simp [strlen, hc]⟩
    · have hs : 0 ∈ s := by
        rcases List.mem_cons.1 h with h | h
        · exact absurd h.symm hc
        · exact h
      obtain ⟨n, hn⟩ := ih hs
      exact ⟨n + 1, by simp [strlen, hc, hn]⟩

theorem take_strlen {s : List Nat} {n : Nat} (h : strlen s = some n) : s.take n = cstr s := by
  obtain ⟨h1, h2, _⟩ := strlen_spec h
  conv_lhs => rw [h1]
  rw [← h2, List.take_left']
  rfl

theorem charFound_spec (c : Nat) :
    ∀ (pool : List Nat) (k : Nat), k ≤ pool.length →
      charFound c pool k = some (decide (c ∈ pool.take k)) := by
  intro pool k
  induction k generalizing pool with
  | zero => intro _; simp [charFound]
  | succ k ih =>
    intro hk
    cases pool with
    | nil => simp at hk
    | cons p ps =>
      have hk1 : k ≤ ps.length := by simpa using hk
      by_cases hcp : c = p
      · simp [charFound, hcp]
      · simp [charFound, hcp, ih ps hk1]

theorem allCharsFound_spec {validCharList : List Nat}
    (hp : NUM_AVAILABLE_CHARS ≤ validCharList.length) :
    ∀ (row : List Nat) (n : Nat), n ≤ row.length →
      allCharsFound validCharList row n = some (decide (inPool validCharList (row.take n))) := by
  intro row n
  induction n generalizing row with
  | zero => intro _; simp [allCharsFound, inPool]
  | succ n ih =>
    intro hn
    cases row with
    | nil => simp at hn
    | cons c cs =>
      have hn1 : n ≤ cs.length := by simpa using hn
      have hc := charFound_spec c validCharList NUM_AVAILABLE_CHARS hp
      by_cases hmem : c ∈ validCharList.take NUM_AVAILABLE_CHARS
      · simp only [allCharsFound, hc, hmem, decide_True, ih cs hn1]
        simp [inPool, hmem]
      · simp only [allCharsFound, hc, hmem, decide_False]
        simp [inPool, hmem]

/-- The outer loop of `findValidWord`, in terms of the strings of the rows
it visits: either no usable string is longer than `lenM` and the output
buffer is untouched, or the output holds the first usable string of the
greatest length. -/
theorem findValidWordLoop_spec {validCharList : List Nat}
    (hp : NUM_AVAILABLE_CHARS ≤ validCharList.length) :
    ∀ (k : Nat) (rows : List (List Nat)) (lenM : Nat) (word : List Nat),
      k ≤ rows.length → (∀ r ∈ rows.take k, r.length = MAX_WORD_SIZE ∧ 0 ∈ r) →
      word.length = MAX_WORD_SIZE →
      ∃ out, findValidWordLoop validCharList rows k lenM word = some out ∧
        out.length = MAX_WORD_SIZE ∧
        (((∀ w ∈ (rows.take k).map cstr, inPool validCharList w → w.length ≤ lenM) ∧
            out = word) ∨
          ∃ i best, ((rows.take k).map cstr)[i]? = some best ∧
            cstr out = best ∧ inPool validCharList best ∧ lenM < best.length ∧
            (∀ w ∈ (rows.take k).map cstr, inPool validCharList w →
              w.length ≤ best.length) ∧
            (∀ (j : Nat) (w : List Nat), j < i → ((rows.take k).map cstr)[j]? = some w →
              inPool validCharList w → w.length < best.length)) := by
  intro k
  induction k with
  | zero =>
    intro rows lenM word _ _ hw
    exact ⟨word, by simp [findValidWordLoop], hw, Or.inl ⟨by simp, rfl⟩⟩
  | succ k ih =>
    intro rows lenM word hk hr hw
    cases rows with
    | nil => simp at hk
    | cons r rs =>
      have hk1 : k ≤ rs.length := by simpa using hk
      have hr0 := hr r (by simp)
      have hr1 : ∀ r1 ∈ rs.take k, r1.length = MAX_WORD_SIZE ∧ 0 ∈ r1 :=
        fun r1 h1 => hr r1 (by simp [h1])
      obtain ⟨len, hlen⟩ := strlen_isSome_of_mem hr0.2
      obtain ⟨hsplit, hclen, hlt⟩ := strlen_spec hlen
      have hall := allCharsFound_spec hp r len (Nat.le_of_lt hlt)
      rw [take_strlen hlen] at hall
      simp only [List.take_succ_cons, List.map_cons]
      by_cases hgt : len > lenM
      · by_cases hin : inPool validCharList (cstr r)
        · -- the row becomes the longest word so far
          have hcp := strcpy_spec hlen word (by rw [hw, ← hr0.1]; exact hlt)
          have hw1 : (cstr r ++ 0 :: List.drop (len + 1) word).length = MAX_WORD_SIZE := by
            simp [hclen, hw]
            rw [hr0.1] at hlt
            omega
          obtain ⟨out, hout, holen, hcase⟩ := ih rs len _ hk1 hr1 hw1
          refine ⟨out, ?_, holen, Or.inr ?_⟩
          · simp [findValidWordLoop, hlen, hgt, hall, hin, hcp, hout]
          · rcases hcase with ⟨hle, heq⟩ | ⟨i, best, h0, h1, h2, h3, h4, h5⟩
            · refine ⟨0, cstr r, by simp, ?_, hin, ?_, ?_, ?_⟩
              · simp [heq, cstr_append_zero (zero_not_mem_cstr r)]
              · simpa [hclen] using hgt
              · intro w hwm hwin
                rcases List.mem_cons.1 hwm with h | h
                · simp [h]
                · simpa [hclen] using hle w h hwin
              · intro j w hj; exact absurd hj (Nat.not_lt_zero j)
            · refine ⟨i + 1, best, by simpa using h0, h1, h2, by omega, ?_, ?_⟩
              · intro w hwm hwin
                rcases List.mem_cons.1 hwm with h | h
                · rw [h, hclen]; omega
                · exact h4 w h hwin
              · intro j w hj hjw hjin
                cases j with
                | zero =>
                  simp only [List.getElem?_cons_zero, Option.some.injEq] at hjw
                  rw [← hjw, hclen]; omega
                | succ j =>
                  simp only [List.getElem?_cons_succ] at hjw
                  exact h5 j w (Nat.lt_of_succ_lt_succ hj) hjw hjin
        · -- a longer row with a letter outside the pool
          obtain ⟨out, hout, holen, hcase⟩ := ih rs lenM word hk1 hr1 hw
          refine ⟨out, ?_, holen, ?_⟩
          · simp [findValidWordLoop, hlen, hgt, hall, hin, hout]
          · rcases hcase with ⟨hle, heq⟩ | ⟨i, best, h0, h1, h2, h3, h4, h5⟩
            · refine Or.inl ⟨?_, heq⟩
              intro w hwm hwin
              rcases List.mem_cons.1 hwm with h | h
              · rw [h] at hwin; exact absurd hwin hin
              · exact hle w h hwin
            · refine Or.inr ⟨i + 1, best, by simpa using h0, h1, h2, h3, ?_, ?_⟩
              · intro w hwm hwin
                rcases List.mem_cons.1 hwm with h | h
                · rw [h] at hwin; exact absurd hwin hin
                · exact h4 w h hwin
              · intro j w hj hjw hjin
                cases j with
                | zero =>
                  simp only [List.getElem?_cons_zero, Option.some.injEq] at hjw
                  rw [← hjw] at hjin
                  exact absurd hjin hin
                | succ j =>
                  simp only [List.getElem?_cons_succ] at hjw
                  exact h5 j w (Nat.lt_of_succ_lt_succ hj) hjw hjin
      · -- the row is not longer than the longest word so far
        have hle0 : len ≤ lenM := by omega
        obtain ⟨out, hout, holen, hcase⟩ := ih rs lenM word hk1 hr1 hw
        refine ⟨out, ?_, holen, ?_⟩
        · simp [findValidWordLoop, hlen, hgt, hout]
        · rcases hcase with ⟨hle, heq⟩ | ⟨i, best, h0, h1, h2, h3, h4, h5⟩
          · refine Or.inl ⟨?_, heq⟩
            intro w hwm hwin
            rcases List.mem_cons.1 hwm with h | h
            · rw [h, hclen]; exact hle0
            · exact hle w h hwin
          · refine Or.inr ⟨i + 1, best, by simpa using h0, h1, h2, h3, ?_, ?_⟩
            · intro w hwm hwin
              rcases List.mem_cons.1 hwm with h | h
              · rw [h, hclen]; omega
              · exact h4 w h hwin
            · intro j w hj hjw hjin
              cases j with
              | zero =>
                simp only [List.getElem?_cons_zero, Option.some.injEq] at hjw
                rw [← hjw, hclen]; omega
              | succ j =>
                simp only [List.getElem?_cons_succ] at hjw
                exact h5 j w (Nat.lt_of_succ_lt_succ hj) hjw hjin

/-- C5: `findValidWord`, called with an empty output word as
`renderEndedState` does, returns the reference result.  If no non-empty
dictionary word has all its bytes among the pool letters, the output stays
empty; otherwise the output is a dictionary word `best` (at index `i`) with
all its bytes in the pool, no usable dictionary word is longer, and every
usable word before index `i` is strictly shorter: `best` is the first word
of the greatest usable length. -/
theorem findValidWord_longest_first (g : game_t) (hs : g.sized)
    (ht : g.assets.terminated) :
    ∃ out, findValidWord g (List.replicate MAX_WORD_SIZE 0) = some out ∧
      ((∀ w ∈ dictionary g.assets, w ≠ [] → ¬ inPool g.validCharList w) → cstr out = []) ∧
      ((∃ w ∈ dictionary g.assets, w ≠ [] ∧ inPool g.validCharList w) →
        ∃ i best, (dictionary g.assets)[i]? = some best ∧ cstr out = best ∧
          best ≠ [] ∧ inPool g.validCharList best ∧
          (∀ w ∈ dictionary g.assets, inPool g.validCharList w → w.length ≤ best.length) ∧
          (∀ (j : Nat) (w : List Nat), j < i → (dictionary g.assets)[j]? = some w →
            inPool g.validCharList w → w.length < best.length)) := by
  have hp : NUM_AVAILABLE_CHARS ≤ g.validCharList.length := by
    rw [hs.2.1]; exact Nat.le_succ _
  have hrows : ∀ r ∈ g.assets.words.take g.assets.numWords,
      r.length = MAX_WORD_SIZE ∧ 0 ∈ r :=
    fun r hr => ⟨hs.2.2.2.2.2 r (List.mem_of_mem_take hr), ht r hr⟩
  obtain ⟨out, hout, _, hcase⟩ := findValidWordLoop_spec hp g.assets.numWords g.assets.words 0
    (List.replicate MAX_WORD_SIZE 0) hs.2.2.2.2.1 hrows (by simp)
  refine ⟨out, hout, ?_, ?_⟩
  · intro hnone
    rcases hcase with ⟨_, heq⟩ | ⟨i, best, h0, h1, h2, h3, _, _⟩
    · rw [heq]; rfl
    · exfalso
      have hmem : best ∈ dictionary g.assets := List.getElem?_mem h0
      have hne : best ≠ [] := by
        intro h; rw [h] at h3; exact absurd h3 (by simp)
      exact hnone best hmem hne h2
  · rintro ⟨w, hwm, hwne, hwin⟩
    rcases hcase with ⟨hle, _⟩ | ⟨i, best, h0, h1, h2, h3, h4, h5⟩
    · exfalso
      have := hle w hwm hwin
      exact hwne (List.length_eq_zero.1 (Nat.le_zero.1 this))
    · refine ⟨i, best, h0, h1, ?_, h2, h4, h5⟩
      intro h; rw [h] at h3; exact absurd h3 (by simp)
/-! ## The main loop -/

/-- What `checkWordAndPlay` can do to the game, whatever the game: nothing,
a rejection, or the store of a row with a positive number of points. -/
theorem checkWordAndPlay_outcome {g g1 : game_t} {sounds : List audios_t}
    (h : checkWordAndPlay g = some (g1, sounds)) :
    (g1 = g ∧ sounds = []) ∨
    (∃ cleared, g1 = { g with
        currentWord := cleared, currentWordSize := 0,
        lastWordT := .LAST_WORD_INVALID } ∧ sounds = [.AUDIO_INCORRECT]) ∨
    (∃ cleared row p, 0 < p ∧ g1 = { g with
        currentWord := cleared, currentWordSize := 0,
        guessedWords := g.guessedWords.set g.guessedWordsNum row,
        guessedWordsNum := g.guessedWordsNum + 1,
        points := g.points + p,
        lastWordT := .LAST_WORD_VALID } ∧ sounds = [.AUDIO_CORRECT]) := by
  unfold checkWordAndPlay at h
  dsimp only at h
  cases h0 : strlen g.currentWord with
  | none => simp [h0] at h
  | some len =>
    by_cases h1 : len > 1
    · simp only [h0, Option.bind_eq_bind, Option.some_bind, h1, if_true] at h
      cases h2 : strcpy (List.replicate MAX_WORD_SIZE 0) g.currentWord with
      | none => simp [h2] at h
      | some word =>
        simp only [h2, Option.some_bind] at h
        cases h3 : memset g.currentWord 0 MAX_WORD_SIZE with
        | none => simp [h3] at h
        | some cleared =>
          simp only [h3, Option.some_bind] at h
          cases h4 : searchWord word g.assets.words g.assets.numWords with
          | none => simp [h4] at h
          | some valid =>
            cases valid with
            | false =>
              simp only [h4, Option.some_bind, Bool.false_eq_true, if_false, Option.some.injEq,
                Prod.mk.injEq] at h
              exact Or.inr (Or.inl ⟨cleared, h.1.symm, h.2.symm⟩)
            | true =>
              simp only [h4, Option.some_bind, if_true] at h
              cases h5 : searchWord word g.guessedWords g.guessedWordsNum with
              | none => simp [h5] at h
              | some used =>
                cases used with
                | false =>
                  simp only [h5, Option.some_bind, Bool.not_false, if_true] at h
                  cases h6 : g.guessedWords[g.guessedWordsNum]? with
                  | none => simp [h6] at h
                  | some row =>
                    simp only [h6, Option.some_bind] at h
                    cases h7 : strcpy row word with
                    | none => simp [h7] at h
                    | some row1 =>
                      simp only [h7, Option.some_bind] at h
                      cases h8 : strlen word with
                      | none => simp [h8] at h
                      | some k =>
                        simp only [h8, Option.some_bind, Option.some.injEq, Prod.mk.injEq] at h
                        refine Or.inr (Or.inr ⟨cleared, row1, _, ?_, h.1.symm, h.2.symm⟩)
                        split <;> decide
                | true =>
                  simp only [h5, Option.some_bind, Bool.not_true, Bool.false_eq_true, if_false,
                    Option.some.injEq, Prod.mk.injEq] at h
                  exact Or.inr (Or.inl ⟨cleared, h.1.symm, h.2.symm⟩)
    · simp only [h0, Option.bind_eq_bind, Option.some_bind, h1, if_false, Option.some.injEq,
        Prod.mk.injEq] at h
      exact Or.inl ⟨h.1.symm, h.2.symm⟩

theorem checkWordAndPlay_state {g g1 : game_t} {sounds : List audios_t}
    (h : checkWordAndPlay g = some (g1, sounds)) :
    g1.state = g.state ∧ g1.validCharList = g.validCharList ∧ g1.timeLeft = g.timeLeft ∧
      g1.assets = g.assets ∧ g.points ≤ g1.points := by
  rcases checkWordAndPlay_outcome h with ⟨rfl, _⟩ | ⟨c, rfl, _⟩ | ⟨c, row, p, hp, rfl, _⟩
  · exact ⟨rfl, rfl, rfl, rfl, le_refl _⟩
  · exact ⟨rfl, rfl, rfl, rfl, le_refl _⟩
  · refine ⟨rfl, rfl, rfl, rfl, ?_⟩
    simp only
    omega
/-- What the key-down branch of the event switch can do. -/
theorem keyDown_outcome {m m1 : main_t} {sym : Int} {rand : Nat} {now : Int}
    {sounds : List audios_t} (h : keyDown m sym rand now = some (m1, sounds)) :
    m1 = m ∨
    (m.game.state = .GAME_STATE_LOADING ∧ sym = SDLK_RETURN ∧
      m1 = { m with game := { m.game with state := .GAME_STATE_CHOOSING_LETTERS } }) ∨
    (m.game.state = .GAME_STATE_LOADING ∧ sym = SDLK_q ∧
      m1 = { m with game := { m.game with state := .GAME_STATE_CLOSE } }) ∨
    (m.game.state = .GAME_STATE_CHOOSING_LETTERS ∧ (sym = SDLK_1 ∨ sym = SDLK_2) ∧
      ∃ ch i n, (if sym = SDLK_1 then randomVocal rand else randomConsonant rand) = some ch ∧
        strlen m.game.validCharList = some i ∧ i < m.game.validCharList.length ∧
        strlen (m.game.validCharList.set i ch) = some n ∧
        ((n = NUM_AVAILABLE_CHARS ∧
            m1 = { game := { m.game with
                      validCharList := m.game.validCharList.set i ch,
                      state := .GAME_STATE_RUNNING },
                   before := some now }) ∨
          (n ≠ NUM_AVAILABLE_CHARS ∧
            m1 = { m with game := { m.game with
                      validCharList := m.game.validCharList.set i ch } }))) ∨
    (m.game.state = .GAME_STATE_RUNNING ∧ sym = SDLK_RETURN ∧
      ∃ g1, checkWordAndPlay m.game = some (g1, sounds) ∧ m1 = { m with game := g1 }) ∨
    (m.game.state = .GAME_STATE_RUNNING ∧ sym ≠ SDLK_RETURN ∧
      ∃ cw sz, cw.length = m.game.currentWord.length ∧
        m1 = { m with game := { m.game with currentWord := cw, currentWordSize := sz } }) ∨
    (m.game.state = .GAME_STATE_ENDED ∧ sym = SDLK_RETURN ∧
      m1 = { m with game := { m.game with state := .GAME_STATE_CLOSE } }) := by
  unfold keyDown at h
  cases hst : m.game.state with
  | GAME_STATE_LOADING =>
    simp only [hst] at h
    split_ifs at h with h1 h2
    · simp only [Option.some.injEq, Prod.mk.injEq] at h
      refine Or.inr (Or.inl ⟨rfl, h1, ?_⟩)
      rw [← h.1]
    · simp only [Option.some.injEq, Prod.mk.injEq] at h
      refine Or.inr (Or.inr (Or.inl ⟨rfl, h2, ?_⟩))
      rw [← h.1]
    · simp only [Option.some.injEq, Prod.mk.injEq] at h
      exact Or.inl h.1.symm
  | GAME_STATE_CHOOSING_LETTERS =>
    simp only [hst] at h
    by_cases h1 : sym = SDLK_1 ∨ sym = SDLK_2
    · simp only [h1, if_true, Option.bind_eq_bind, Option.bind_eq_some] at h
      obtain ⟨ch, hch, i, hi, h⟩ := h
      by_cases h2 : i < m.game.validCharList.length
      · simp only [h2, if_true, Option.bind_eq_some] at h
        obtain ⟨n, hn, h⟩ := h
        refine Or.inr (Or.inr (Or.inr (Or.inl ⟨rfl, h1, ch, i, n, hch, hi, h2, hn, ?_⟩)))
        split_ifs at h with h3
        · simp only [Option.some.injEq, Prod.mk.injEq] at h
          refine Or.inl ⟨h3, ?_⟩
          rw [← h.1]
        · simp only [Option.some.injEq, Prod.mk.injEq] at h
          refine Or.inr ⟨h3, ?_⟩
          rw [← h.1]; simp only [hst]
      · simp [h2] at h
    · simp only [h1, if_false, Option.some.injEq, Prod.mk.injEq] at h
      exact Or.inl h.1.symm
  | GAME_STATE_RUNNING =>
    simp only [hst] at h
    by_cases h1 : sym = SDLK_RETURN
    · simp only [h1, if_true, Option.bind_eq_bind, Option.bind_eq_some] at h
      obtain ⟨⟨g1, s1⟩, hc, h⟩ := h
      simp only [Option.some.injEq, Prod.mk.injEq] at h
      obtain ⟨rfl, rfl⟩ := h
      exact Or.inr (Or.inr (Or.inr (Or.inr (Or.inl ⟨rfl, h1, g1, hc, rfl⟩))))
    · simp only [h1, if_false] at h
      refine Or.inr (Or.inr (Or.inr (Or.inr (Or.inr (Or.inl ⟨rfl, h1, ?_⟩)))))
      have hsame : m = { m with game := { m.game with
          currentWord := m.game.currentWord, currentWordSize := m.game.currentWordSize } } := rfl
      by_cases h2 : sym = SDLK_BACKSPACE
      · simp only [h2, if_true] at h
        by_cases h3 : m.game.currentWordSize > 0
        · simp only [h3, if_true] at h
          by_cases h4 : m.game.currentWordSize - 1 < m.game.currentWord.length
          · simp only [h4, if_true, Option.some.injEq, Prod.mk.injEq] at h
            refine ⟨m.game.currentWord.set (m.game.currentWordSize - 1) 0,
              m.game.currentWordSize - 1, List.length_set _ _ _, ?_⟩
            rw [← h.1]; simp only [hst]
          · simp [h4] at h
        · simp only [h3, if_false, Option.some.injEq, Prod.mk.injEq] at h
          exact ⟨m.game.currentWord, m.game.currentWordSize, rfl, h.1 ▸ hsame⟩
      · simp only [h2, if_false] at h
        by_cases h5 : sym < 127 ∧ isalpha sym = true
        · simp only [h5, and_self, if_true] at h
          by_cases h6 : m.game.currentWordSize < MAX_WORD_SIZE
          · simp only [h6, if_true, Option.bind_eq_bind, Option.bind_eq_some] at h
            obtain ⟨p, _, h⟩ := h
            by_cases h7 : p ≠ none
            · rw [if_pos h7] at h
              by_cases h8 : m.game.currentWordSize < m.game.currentWord.length
              · simp only [h8, if_true, Option.some.injEq, Prod.mk.injEq] at h
                refine ⟨m.game.currentWord.set m.game.currentWordSize (toupper sym).toNat,
                  m.game.currentWordSize + 1, List.length_set _ _ _, ?_⟩
                rw [← h.1]; simp only [hst]
              · simp [h8] at h
            · rw [if_neg h7] at h
              simp only [Option.some.injEq, Prod.mk.injEq] at h
              exact ⟨m.game.currentWord, m.game.currentWordSize, rfl, h.1 ▸ hsame⟩
          · simp only [h6, if_false, Option.some.injEq, Prod.mk.injEq] at h
            exact ⟨m.game.currentWord, m.game.currentWordSize, rfl, h.1 ▸ hsame⟩
        · simp only [h5, if_false, Option.some.injEq, Prod.mk.injEq] at h
          exact ⟨m.game.currentWord, m.game.currentWordSize, rfl, h.1 ▸ hsame⟩
  | GAME_STATE_ENDED =>
    simp only [hst] at h
    split_ifs at h with h1
    · simp only [Option.some.injEq, Prod.mk.injEq] at h
      refine Or.inr (Or.inr (Or.inr (Or.inr (Or.inr (Or.inr ⟨rfl, h1, ?_⟩)))))
      rw [← h.1]
    · simp only [Option.some.injEq, Prod.mk.injEq] at h
      exact Or.inl h.1.symm
  | GAME_STATE_CLOSE =>
    simp only [hst, Option.some.injEq, Prod.mk.injEq] at h
    exact Or.inl h.1.symm
/-- What the timer block can do. -/
theorem timerTick_outcome {m m1 : main_t} {actual : Int} {sounds : List audios_t}
    (h : timerTick m actual = some (m1, sounds)) :
    (m.game.state ≠ .GAME_STATE_RUNNING ∧ m1 = m ∧ sounds = []) ∨
    (m.game.state = .GAME_STATE_RUNNING ∧ ∃ before, m.before = some before ∧
      m1 = { game := { m.game with
               timeLeft := m.game.timeLeft - (actual - before),
               lastTime := m.game.timeLeft - (actual - before),
               state := if m.game.timeLeft - (actual - before) < 1
                 then .GAME_STATE_ENDED else .GAME_STATE_RUNNING },
             before := some actual }) := by
  unfold timerTick at h
  by_cases hst : m.game.state = .GAME_STATE_RUNNING
  · simp only [hst, if_true] at h
    cases hb : m.before with
    | none => simp [hb] at h
    | some before =>
      simp only [hb, Option.some.injEq, Prod.mk.injEq] at h
      refine Or.inr ⟨hst, before, rfl, ?_⟩
      rw [← h.1]
      split_ifs <;> simp [hst]
  · simp only [hst, if_false, Option.some.injEq, Prod.mk.injEq] at h
    exact Or.inl ⟨hst, h.1.symm, h.2.symm⟩

/-- What one polled event can do. -/
theorem handleEvent_outcome {m m1 : main_t} {e : SDL_Event} {rand : Nat} {now : Int}
    {sounds : List audios_t} (h : handleEvent m e rand now = some (m1, sounds)) :
    m1 = m ∨
    (e = .SDL_QUIT ∧ m1 = { m with game := { m.game with state := .GAME_STATE_CLOSE } }) ∨
    (∃ width height, m1 = { m with game := { m.game with
        screen_width := width, screen_height := height } }) ∨
    (∃ sym, e = .SDL_KEYDOWN sym ∧ keyDown m sym rand now = some (m1, sounds)) := by
  cases e with
  | SDL_QUIT =>
    simp only [handleEvent, Option.some.injEq, Prod.mk.injEq] at h
    exact Or.inr (Or.inl ⟨rfl, h.1.symm⟩)
  | SDL_WINDOWEVENT we width height =>
    cases we with
    | SDL_WINDOWEVENT_RESIZED =>
      simp only [handleEvent, Option.some.injEq, Prod.mk.injEq] at h
      exact Or.inr (Or.inr (Or.inl ⟨width, height, h.1.symm⟩))
    | SDL_WINDOWEVENT_OTHER =>
      simp only [handleEvent, Option.some.injEq, Prod.mk.injEq] at h
      exact Or.inl h.1.symm
  | SDL_KEYDOWN sym => exact Or.inr (Or.inr (Or.inr ⟨sym, rfl, h⟩))
  | SDL_OTHER =>
    simp only [handleEvent, Option.some.injEq, Prod.mk.injEq] at h
    exact Or.inl h.1.symm

theorem step_close {m : main_t} (i : Input) (hst : m.game.state = .GAME_STATE_CLOSE) :
    ∃ m1 sounds, step m i = some (m1, sounds) ∧ m1.game.state = .GAME_STATE_CLOSE ∧
      m1.game.timeLeft = m.game.timeLeft := by
  cases i with
  | tick actual => exact ⟨m, [], by simp [step, timerTick, hst], hst, rfl⟩
  | event e rand now =>
    cases e with
    | SDL_QUIT => exact ⟨_, _, rfl, rfl, rfl⟩
    | SDL_WINDOWEVENT we width height =>
      cases we with
      | SDL_WINDOWEVENT_RESIZED => exact ⟨_, _, rfl, hst, rfl⟩
      | SDL_WINDOWEVENT_OTHER => exact ⟨_, _, rfl, hst, rfl⟩
    | SDL_KEYDOWN sym => exact ⟨m, [], by simp [step, handleEvent, keyDown, hst], hst, rfl⟩
    | SDL_OTHER => exact ⟨_, _, rfl, hst, rfl⟩

/-- The phase changes one step of the loop can make. -/
theorem step_phase {m m1 : main_t} {i : Input} {sounds : List audios_t}
    (h : step m i = some (m1, sounds)) :
    m1.game.state = m.game.state ∨
    (m.game.state = .GAME_STATE_LOADING ∧ m1.game.state = .GAME_STATE_CHOOSING_LETTERS ∧
      ∃ rand now, i = .event (.SDL_KEYDOWN SDLK_RETURN) rand now) ∨
    (m.game.state = .GAME_STATE_LOADING ∧ m1.game.state = .GAME_STATE_CLOSE ∧
      ∃ rand now, i = .event (.SDL_KEYDOWN SDLK_q) rand now) ∨
    (m.game.state = .GAME_STATE_CHOOSING_LETTERS ∧ m1.game.state = .GAME_STATE_RUNNING ∧
      (∃ rand now, i = .event (.SDL_KEYDOWN SDLK_1) rand now ∨
        i = .event (.SDL_KEYDOWN SDLK_2) rand now) ∧
      strlen m1.game.validCharList = some NUM_AVAILABLE_CHARS) ∨
    (m.game.state = .GAME_STATE_RUNNING ∧ m1.game.state = .GAME_STATE_ENDED ∧
      ∃ actual, i = .tick actual) ∨
    (m.game.state = .GAME_STATE_ENDED ∧ m1.game.state = .GAME_STATE_CLOSE ∧
      ∃ rand now, i = .event (.SDL_KEYDOWN SDLK_RETURN) rand now) ∨
    (m1.game.state = .GAME_STATE_CLOSE ∧ ∃ rand now, i = .event .SDL_QUIT rand now) := by
  cases i with
  | tick actual =>
    rcases timerTick_outcome h with ⟨_, rfl, _⟩ | ⟨hst, before, _, rfl⟩
    · exact Or.inl rfl
    · by_cases hlt : m.game.timeLeft - (actual - before) < 1
      · refine Or.inr (Or.inr (Or.inr (Or.inr (Or.inl ⟨hst, ?_, actual, rfl⟩))))
        simp [hlt]
      · refine Or.inl ?_
        simp [hlt, hst]
  | event e rand now =>
    rcases handleEvent_outcome h with rfl | ⟨rfl, rfl⟩ | ⟨w, ht, rfl⟩ | ⟨sym, rfl, hk⟩
    · exact Or.inl rfl
    · exact Or.inr (Or.inr (Or.inr (Or.inr (Or.inr (Or.inr ⟨rfl, rand, now, rfl⟩)))))
    · exact Or.inl rfl
    · rcases keyDown_outcome hk with rfl | ⟨hst, rfl, rfl⟩ | ⟨hst, rfl, rfl⟩ |
        ⟨hst, hsym, ch, j, n, _, _, _, hn, ⟨hn10, rfl⟩ | ⟨_, rfl⟩⟩ | ⟨hst, rfl, g1, hc, rfl⟩ |
        ⟨hst, _, cw, sz, _, rfl⟩ | ⟨hst, rfl, rfl⟩
      · exact Or.inl rfl
      · exact Or.inr (Or.inl ⟨hst, rfl, rand, now, rfl⟩)
      · exact Or.inr (Or.inr (Or.inl ⟨hst, rfl, rand, now, rfl⟩))
      · refine Or.inr (Or.inr (Or.inr (Or.inl ⟨hst, rfl, ⟨rand, now, ?_⟩, ?_⟩)))
        · rcases hsym with rfl | rfl
          · exact Or.inl rfl
          · exact Or.inr rfl
        · rw [← hn10]; exact hn
      · exact Or.inl rfl
      · exact Or.inl (checkWordAndPlay_state hc).1
      · exact Or.inl rfl
      · exact Or.inr (Or.inr (Or.inr (Or.inr (Or.inr (Or.inl ⟨hst, rfl, rand, now, rfl⟩)))))

theorem step_phaseRank {m m1 : main_t} {i : Input} {sounds : List audios_t}
    (h : step m i = some (m1, sounds)) :
    phaseRank m.game.state ≤ phaseRank m1.game.state := by
  rcases step_phase h with h | ⟨h1, h2, _⟩ | ⟨h1, h2, _⟩ | ⟨h1, h2, _⟩ | ⟨h1, h2, _⟩ |
    ⟨h1, h2, _⟩ | ⟨h2, _⟩
  · rw [h]
  · rw [h1, h2]; decide
  · rw [h1, h2]; decide
  · rw [h1, h2]; decide
  · rw [h1, h2]; decide
  · rw [h1, h2]; decide
  · rw [h2]; cases m.game.state <;> decide

/-- C6: every step of the main loop (one pass through the timer block or
one polled event) leaves the phase as it is or takes one of the transitions
Loading to ChoosingLetters on Enter, Loading to Close on q, ChoosingLetters
to Running on a draw key that fills the pool, Running to Ended on a timer
tick, Ended to Close on Enter, any phase to Close on the window-quit event.
Hence over any run the phase never moves to an earlier one in the order
Loading, ChoosingLetters, Running, Ended, Close, and from Close every run is
defined and ends in Close. -/
theorem phase_follows_transition_relation :
    (∀ (m : main_t) (i : Input) (m1 : main_t) (sounds : List audios_t),
      step m i = some (m1, sounds) →
        m1.game.state = m.game.state ∨
        (m.game.state = .GAME_STATE_LOADING ∧
          m1.game.state = .GAME_STATE_CHOOSING_LETTERS ∧
          ∃ rand now, i = .event (.SDL_KEYDOWN SDLK_RETURN) rand now) ∨
        (m.game.state = .GAME_STATE_LOADING ∧ m1.game.state = .GAME_STATE_CLOSE ∧
          ∃ rand now, i = .event (.SDL_KEYDOWN SDLK_q) rand now) ∨
        (m.game.state = .GAME_STATE_CHOOSING_LETTERS ∧
          m1.game.state = .GAME_STATE_RUNNING ∧
          (∃ rand now, i = .event (.SDL_KEYDOWN SDLK_1) rand now ∨
            i = .event (.SDL_KEYDOWN SDLK_2) rand now) ∧
          strlen m1.game.validCharList = some NUM_AVAILABLE_CHARS) ∨
        (m.game.state = .GAME_STATE_RUNNING ∧ m1.game.state = .GAME_STATE_ENDED ∧
          ∃ actual, i = .tick actual) ∨
        (m.game.state = .GAME_STATE_ENDED ∧ m1.game.state = .GAME_STATE_CLOSE ∧
          ∃ rand now, i = .event (.SDL_KEYDOWN SDLK_RETURN) rand now) ∨
        (m1.game.state = .GAME_STATE_CLOSE ∧ ∃ rand now, i = .event .SDL_QUIT rand now)) ∧
    (∀ (m : main_t) (inputs : List Input) (m1 : main_t), run m inputs = some m1 →
      phaseRank m.game.state ≤ phaseRank m1.game.state) ∧
    (∀ (m : main_t) (inputs : List Input), m.game.state = .GAME_STATE_CLOSE →
      ∃ m1, run m inputs = some m1 ∧ m1.game.state = .GAME_STATE_CLOSE) := by
  refine ⟨fun m i m1 sounds h => step_phase h, ?_, ?_⟩
  · intro m inputs
    induction inputs generalizing m with
    | nil =>
      intro m1 h
      simp only [run, Option.some.injEq] at h
      rw [h]
    | cons i is ih =>
      intro m1 h
      simp only [run] at h
      cases hs : step m i with
      | none => simp [hs] at h
      | some r =>
        obtain ⟨m2, s⟩ := r
        simp only [hs] at h
        exact Nat.le_trans (step_phaseRank hs) (ih m2 m1 h)
  · intro m inputs
    induction inputs generalizing m with
    | nil => intro hst; exact ⟨m, rfl, hst⟩
    | cons i is ih =>
      intro hst
      obtain ⟨m2, s, hs, hst2, _⟩ := step_close i hst
      obtain ⟨m1, hr, hc⟩ := ih m2 hst2
      exact ⟨m1, by simp only [run, hs]; exact hr, hc⟩
theorem step_timeLeft {m m1 : main_t} {i : Input} {sounds : List audios_t}
    (h : step m i = some (m1, sounds)) :
    m1.game.timeLeft = m.game.timeLeft ∨
      (m.game.state = .GAME_STATE_RUNNING ∧ ∃ actual, i = .tick actual) := by
  cases i with
  | tick actual =>
    rcases timerTick_outcome h with ⟨_, rfl, _⟩ | ⟨hst, _⟩
    · exact Or.inl rfl
    · exact Or.inr ⟨hst, actual, rfl⟩
  | event e rand now =>
    refine Or.inl ?_
    rcases handleEvent_outcome h with rfl | ⟨rfl, rfl⟩ | ⟨w, ht, rfl⟩ | ⟨sym, rfl, hk⟩
    · rfl
    · rfl
    · rfl
    · rcases keyDown_outcome hk with rfl | ⟨hst, rfl, rfl⟩ | ⟨hst, rfl, rfl⟩ |
        ⟨hst, hsym, ch, j, n, _, _, _, hn, ⟨hn10, rfl⟩ | ⟨_, rfl⟩⟩ | ⟨hst, rfl, g1, hc, rfl⟩ |
        ⟨hst, _, cw, sz, _, rfl⟩ | ⟨hst, rfl, rfl⟩
      · rfl
      · rfl
      · rfl
      · rfl
      · rfl
      · exact (checkWordAndPlay_state hc).2.2.1
      · rfl
      · rfl

/-- In the Running phase `before` holds a value: the draw that enters the
phase assigns it and every tick assigns it again. -/
theorem step_before {m m1 : main_t} {i : Input} {sounds : List audios_t}
    (h : step m i = some (m1, sounds))
    (hb : m.game.state = .GAME_STATE_RUNNING → ∃ before, m.before = some before)
    (hst1 : m1.game.state = .GAME_STATE_RUNNING) : ∃ before, m1.before = some before := by
  cases i with
  | tick actual =>
    rcases timerTick_outcome h with ⟨_, rfl, _⟩ | ⟨_, before, _, rfl⟩
    · exact hb hst1
    · exact ⟨actual, rfl⟩
  | event e rand now =>
    rcases handleEvent_outcome h with rfl | ⟨rfl, rfl⟩ | ⟨w, ht, rfl⟩ | ⟨sym, rfl, hk⟩
    · exact hb hst1
    · cases hst1
    · exact hb hst1
    · rcases keyDown_outcome hk with rfl | ⟨_, rfl, rfl⟩ | ⟨_, rfl, rfl⟩ |
        ⟨hst, _, ch, j, n, _, _, _, _, ⟨_, rfl⟩ | ⟨_, rfl⟩⟩ | ⟨hst, rfl, g1, hc, rfl⟩ |
        ⟨hst, _, cw, sz, _, rfl⟩ | ⟨_, rfl, rfl⟩
      · exact hb hst1
      · cases hst1
      · cases hst1
      · exact ⟨now, rfl⟩
      · exact hb hst1
      · exact hb hst
      · exact hb hst
      · cases hst1

theorem reachable_before {assets : assets_t} {m : main_t} (hr : Reachable assets m) :
    m.game.state = .GAME_STATE_RUNNING → ∃ before, m.before = some before := by
  induction hr with
  | init => intro h; cases h
  | step i _ hs ih => exact step_before hs ih

/-- C8: in the Running phase a tick subtracts the elapsed seconds
`actual - before` from `timeLeft` (whatever their number, not 1) and sets
`before` to `actual`; the phase becomes Ended exactly when the new
`timeLeft` is at most 0 and stays Running otherwise.  In every reachable
Running state `before` holds a value, so the tick is defined there.  Outside
the Running phase a tick changes nothing, and from Ended or Close no run
changes `timeLeft`. -/
theorem timer_subtracts_elapsed :
    (∀ (m : main_t) (actual before : Int), m.game.state = .GAME_STATE_RUNNING →
      m.before = some before →
      ∃ m1 sounds, step m (.tick actual) = some (m1, sounds) ∧
        m1.game.timeLeft = m.game.timeLeft - (actual - before) ∧
        m1.before = some actual ∧
        (m1.game.state = .GAME_STATE_ENDED ↔ m1.game.timeLeft ≤ 0) ∧
        (m1.game.state = .GAME_STATE_RUNNING ↔ ¬ m1.game.timeLeft ≤ 0)) ∧
    (∀ (assets : assets_t) (m : main_t), Reachable assets m →
      m.game.state = .GAME_STATE_RUNNING → ∃ before, m.before = some before) ∧
    (∀ (m : main_t) (actual : Int), m.game.state ≠ .GAME_STATE_RUNNING →
      step m (.tick actual) = some (m, [])) ∧
    (∀ (m : main_t) (inputs : List Input) (m1 : main_t),
      m.game.state = .GAME_STATE_ENDED ∨ m.game.state = .GAME_STATE_CLOSE →
      run m inputs = some m1 → m1.game.timeLeft = m.game.timeLeft) := by
  refine ⟨?_, fun assets m hr => reachable_before hr, ?_, ?_⟩
  · intro m actual before hst hb
    have hdef : ∃ r, step m (.tick actual) = some r := by
      simp [step, timerTick, hst, hb]
    obtain ⟨⟨m1, s⟩, hr⟩ := hdef
    refine ⟨m1, s, hr, ?_⟩
    rcases timerTick_outcome hr with ⟨hne, _⟩ | ⟨_, b, hb2, rfl⟩
    · exact absurd hst hne
    · rw [hb] at hb2
      simp only [Option.some.injEq] at hb2
      subst hb2
      refine ⟨rfl, rfl, ?_, ?_⟩
      · by_cases hlt : m.game.timeLeft - (actual - before) < 1
        · simp only [hlt, if_true, true_iff]; omega
        · simp only [hlt, if_false]
          constructor
          · intro h; cases h
          · intro h; omega
      · by_cases hlt : m.game.timeLeft - (actual - before) < 1
        · simp only [hlt, if_true]
          constructor
          · intro h; cases h
          · intro h; omega
        · simp only [hlt, if_false, true_iff]; omega
  · intro m actual hst
    simp [step, timerTick, hst]
  · intro m inputs
    induction inputs generalizing m with
    | nil =>
      intro m1 _ h
      simp only [run, Option.some.injEq] at h
      rw [h]
    | cons i is ih =>
      intro m1 hst h
      simp only [run] at h
      cases hs : step m i with
      | none => simp [hs] at h
      | some r =>
        obtain ⟨m2, s⟩ := r
        simp only [hs] at h
        have htl : m2.game.timeLeft = m.game.timeLeft := by
          rcases step_timeLeft hs with h1 | ⟨h1, _⟩
          · exact h1
          · rcases hst with h2 | h2 <;> rw [h1] at h2 <;> cases h2
        have hst2 : m2.game.state = .GAME_STATE_ENDED ∨ m2.game.state = .GAME_STATE_CLOSE := by
          have hrank := step_phaseRank hs
          rcases hst with h2 | h2 <;> rw [h2] at hrank <;>
            cases h3 : m2.game.state <;> rw [h3] at hrank <;> simp [phaseRank] at hrank <;> simp
        rw [← htl]
        exact ih m2 m1 hst2 h
/-! ## The letter pool -/

theorem randomVocal_letter (rand : Nat) :
    ∃ ch, randomVocal rand = some ch ∧ 65 ≤ ch ∧ ch ≤ 90 := by
  have h := Nat.mod_lt rand (show 0 < 5 by decide)
  unfold randomVocal vocals
  generalize rand % 5 = k at h
  interval_cases k <;> simp

theorem randomConsonant_letter (rand : Nat) :
    ∃ ch, randomConsonant rand = some ch ∧ 65 ≤ ch ∧ ch ≤ 90 := by
  have h := Nat.mod_lt rand (show 0 < 16 by decide)
  have hl : strlen consonants = some 16 := by decide
  unfold randomConsonant
  simp only [hl, Option.bind_eq_bind, Option.some_bind]
  unfold consonants
  generalize rand % 16 = k at h
  interval_cases k <;> simp

theorem poolOf_eq {letters : List Nat} (hl : letters.length ≤ NUM_AVAILABLE_CHARS) :
    poolOf letters
      = letters ++ 0 :: List.replicate (NUM_AVAILABLE_CHARS - letters.length) 0 := by
  unfold poolOf
  have : NUM_AVAILABLE_CHARS + 1 - letters.length
      = (NUM_AVAILABLE_CHARS - letters.length) + 1 := by omega
  rw [this, List.replicate_succ]

theorem strlen_poolOf {letters : List Nat} (h0 : 0 ∉ letters)
    (hl : letters.length ≤ NUM_AVAILABLE_CHARS) :
    strlen (poolOf letters) = some letters.length := by
  rw [poolOf_eq hl, strlen_append_zero h0]

theorem cstr_poolOf {letters : List Nat} (h0 : 0 ∉ letters)
    (hl : letters.length ≤ NUM_AVAILABLE_CHARS) :
    cstr (poolOf letters) = letters := by
  rw [poolOf_eq hl, cstr_append_zero h0]

theorem length_poolOf {letters : List Nat} (hl : letters.length ≤ NUM_AVAILABLE_CHARS) :
    (poolOf letters).length = NUM_AVAILABLE_CHARS + 1 := by
  unfold poolOf
  simp
  omega

theorem poolOf_set {letters : List Nat} (hl : letters.length < NUM_AVAILABLE_CHARS)
    (ch : Nat) :
    (poolOf letters).set letters.length ch = poolOf (letters ++ [ch]) := by
  rw [poolOf_eq (Nat.le_of_lt hl), poolOf_eq (by simpa using hl)]
  have : NUM_AVAILABLE_CHARS - letters.length
      = (NUM_AVAILABLE_CHARS - (letters ++ [ch]).length) + 1 := by
    simp
    omega
  rw [this, List.replicate_succ]
  simp [List.set_append]

/-- A draw key in the ChoosingLetters phase, on a pool that satisfies the
invariant: the step is defined, appends one capital letter and moves to
Running exactly when the pool is then full. -/
theorem keyDown_draw {m : main_t} {letters : List Nat} {sym : Int} (rand : Nat) (now : Int)
    (hst : m.game.state = .GAME_STATE_CHOOSING_LETTERS)
    (hsym : sym = SDLK_1 ∨ sym = SDLK_2)
    (h0 : 0 ∉ letters) (hl : letters.length < NUM_AVAILABLE_CHARS)
    (hv : m.game.validCharList = poolOf letters) :
    ∃ ch, 65 ≤ ch ∧ ch ≤ 90 ∧
      keyDown m sym rand now = some
        (if letters.length + 1 = NUM_AVAILABLE_CHARS then
          { game := { m.game with
              validCharList := poolOf (letters ++ [ch]), state := .GAME_STATE_RUNNING },
            before := some now }
        else
          { m with game := { m.game with validCharList := poolOf (letters ++ [ch]) } }, []) := by
  have hch : ∃ ch, (if sym = SDLK_1 then randomVocal rand else randomConsonant rand) = some ch ∧
      65 ≤ ch ∧ ch ≤ 90 := by
    split_ifs
    · exact randomVocal_letter rand
    · exact randomConsonant_letter rand
  obtain ⟨ch, hch, hlo, hhi⟩ := hch
  have hne : ch ≠ 0 := by omega
  have h1 : 0 ∉ letters ++ [ch] := by
    simp only [List.mem_append, List.mem_singleton, not_or]
    exact ⟨h0, fun h => hne h.symm⟩
  have hl1 : (letters ++ [ch]).length ≤ NUM_AVAILABLE_CHARS := by simpa using hl
  have hs0 := strlen_poolOf h0 (Nat.le_of_lt hl)
  have hs1 := strlen_poolOf h1 hl1
  have hlen : letters.length < (poolOf letters).length := by
    rw [length_poolOf (Nat.le_of_lt hl)]; omega
  refine ⟨ch, hlo, hhi, ?_⟩
  unfold keyDown
  simp only [hst, hsym, if_true, hch, hv, hs0, hlen, poolOf_set hl, hs1, Option.bind_eq_bind,
    Option.some_bind, List.length_append, List.length_singleton]
  split_ifs <;> rfl

theorem poolInv_transport {m m1 : main_t} (hp : PoolInv m)
    (hv : m1.game.validCharList = m.game.validCharList)
    (hs : m1.game.state = m.game.state ∨ m1.game.state = .GAME_STATE_CLOSE ∨
      (m.game.state = .GAME_STATE_LOADING ∧ m1.game.state = .GAME_STATE_CHOOSING_LETTERS) ∨
      (m.game.state = .GAME_STATE_RUNNING ∧ m1.game.state = .GAME_STATE_ENDED)) :
    PoolInv m1 := by
  obtain ⟨letters, h0, hl, hpool, hA, hB, hC⟩ := hp.letters
  refine ⟨letters, h0, hl, hv.trans hpool, ?_, ?_, ?_⟩
  · intro h1
    rcases hs with h | h | ⟨_, h⟩ | ⟨_, h⟩
    · exact hA (h ▸ h1)
    · rw [h] at h1; cases h1
    · rw [h] at h1; cases h1
    · rw [h] at h1; cases h1
  · intro h1
    rcases hs with h | h | ⟨h2, h⟩ | ⟨_, h⟩
    · exact hB (h ▸ h1)
    · rw [h] at h1; cases h1
    · have := hA h2
      rw [this]; decide
    · rw [h] at h1; cases h1
  · intro h1
    rcases hs with h | h | ⟨_, h⟩ | ⟨h2, h⟩
    · exact hC (h ▸ h1)
    · rw [h] at h1; rcases h1 with h1 | h1 <;> cases h1
    · rw [h] at h1; rcases h1 with h1 | h1 <;> cases h1
    · exact hC (Or.inl h2)

theorem poolInv_step {m m1 : main_t} {i : Input} {sounds : List audios_t}
    (hp : PoolInv m) (h : step m i = some (m1, sounds)) : PoolInv m1 := by
  cases i with
  | tick actual =>
    rcases timerTick_outcome h with ⟨_, rfl, _⟩ | ⟨hst, before, _, rfl⟩
    · exact hp
    · refine poolInv_transport hp rfl ?_
      by_cases hlt : m.game.timeLeft - (actual - before) < 1
      · exact Or.inr (Or.inr (Or.inr ⟨hst, by simp [hlt]⟩))
      · exact Or.inl (by simp [hlt, hst])
  | event e rand now =>
    rcases handleEvent_outcome h with rfl | ⟨rfl, rfl⟩ | ⟨w, ht, rfl⟩ | ⟨sym, rfl, hk⟩
    · exact hp
    · exact poolInv_transport hp rfl (Or.inr (Or.inl rfl))
    · exact poolInv_transport hp rfl (Or.inl rfl)
    · by_cases hdraw : m.game.state = .GAME_STATE_CHOOSING_LETTERS ∧
          (sym = SDLK_1 ∨ sym = SDLK_2)
      · obtain ⟨letters, h0, hl, hpool, _, hB, _⟩ := hp.letters
        have hlt := hB hdraw.1
        obtain ⟨ch, hlo, hhi, hres⟩ := keyDown_draw rand now hdraw.1 hdraw.2 h0 hlt hpool
        have hne : ch ≠ 0 := by omega
        have h1 : 0 ∉ letters ++ [ch] := by
          simp only [List.mem_append, List.mem_singleton, not_or]
          exact ⟨h0, fun h => hne h.symm⟩
        rw [hres] at hk
        simp only [Option.some.injEq, Prod.mk.injEq] at hk
        obtain ⟨rfl, _⟩ := hk
        by_cases hfull : letters.length + 1 = NUM_AVAILABLE_CHARS
        · simp only [hfull, if_true]
          refine ⟨letters ++ [ch], h1, by simp [hfull], rfl, ?_, ?_, ?_⟩
          · intro h; cases h
          · intro h; cases h
          · intro _; simpa using hfull
        · simp only [hfull, if_false]
          refine ⟨letters ++ [ch], h1, by simpa using hlt, rfl, ?_, ?_, ?_⟩
          · intro h; rw [hdraw.1] at h; cases h
          · intro _
            simp only [List.length_append, List.length_singleton]
            omega
          · intro h; rw [hdraw.1] at h; rcases h with h | h <;> cases h
      · rcases keyDown_outcome hk with rfl | ⟨hst, rfl, rfl⟩ | ⟨hst, rfl, rfl⟩ |
          ⟨hst, hsym, _⟩ | ⟨hst, rfl, g1, hc, rfl⟩ |
          ⟨hst, _, cw, sz, _, rfl⟩ | ⟨hst, rfl, rfl⟩
        · exact hp
        · exact poolInv_transport hp rfl (Or.inr (Or.inr (Or.inl ⟨hst, rfl⟩)))
        · exact poolInv_transport hp rfl (Or.inr (Or.inl rfl))
        · exact absurd ⟨hst, hsym⟩ hdraw
        · exact poolInv_transport hp (checkWordAndPlay_state hc).2.1 (Or.inl (checkWordAndPlay_state hc).1)
        · exact poolInv_transport hp rfl (Or.inl rfl)
        · exact poolInv_transport hp rfl (Or.inr (Or.inl rfl))

theorem poolInv_init (assets : assets_t) : PoolInv (initialMain assets) :=
  ⟨[], by simp, by simp, rfl, fun _ => rfl, fun _ => by decide,
    fun h => by rcases h with h | h <;> cases h⟩

theorem reachable_poolInv {assets : assets_t} {m : main_t} (hr : Reachable assets m) :
    PoolInv m := by
  induction hr with
  | init => exact poolInv_init assets
  | step i _ hs ih => exact poolInv_step ih hs

/-- When the pool is full no step changes it. -/
theorem step_full_pool {m m1 : main_t} {i : Input} {sounds : List audios_t}
    (hst : m.game.state ≠ .GAME_STATE_CHOOSING_LETTERS)
    (h : step m i = some (m1, sounds)) :
    m1.game.validCharList = m.game.validCharList := by
  cases i with
  | tick actual =>
    rcases timerTick_outcome h with ⟨_, rfl, _⟩ | ⟨_, before, _, rfl⟩ <;> rfl
  | event e rand now =>
    rcases handleEvent_outcome h with rfl | ⟨rfl, rfl⟩ | ⟨w, ht, rfl⟩ | ⟨sym, rfl, hk⟩
    · rfl
    · rfl
    · rfl
    · rcases keyDown_outcome hk with rfl | ⟨_, rfl, rfl⟩ | ⟨_, rfl, rfl⟩ |
        ⟨hst1, _⟩ | ⟨_, rfl, g1, hc, rfl⟩ |
        ⟨_, _, cw, sz, _, rfl⟩ | ⟨_, rfl, rfl⟩
      · rfl
      · rfl
      · rfl
      · exact absurd hst1 hst
      · exact (checkWordAndPlay_state hc).2.1
      · rfl
      · rfl

/-- C7: in every state reachable from the initial one the pool holds at
most `NUM_AVAILABLE_CHARS` = 10 letters, fewer than 10 in the
ChoosingLetters phase and exactly 10 in the Running and Ended phases.  In
the ChoosingLetters phase a draw key (1 or 2) is a defined step that appends
exactly one capital letter and moves to Running exactly when the pool then
has 10 letters (it stays in ChoosingLetters otherwise); once the pool has 10
letters no step changes it. -/
theorem pool_fills_to_capacity (assets : assets_t) (m : main_t)
    (hr : Reachable assets m) :
    ∃ n, strlen m.game.validCharList = some n ∧ n ≤ NUM_AVAILABLE_CHARS ∧
      (m.game.state = .GAME_STATE_CHOOSING_LETTERS → n < NUM_AVAILABLE_CHARS) ∧
      (m.game.state = .GAME_STATE_RUNNING ∨ m.game.state = .GAME_STATE_ENDED →
        n = NUM_AVAILABLE_CHARS) ∧
      (m.game.state = .GAME_STATE_CHOOSING_LETTERS →
        ∀ (sym : Int) (rand : Nat) (now : Int), sym = SDLK_1 ∨ sym = SDLK_2 →
          ∃ m1 ch, step m (.event (.SDL_KEYDOWN sym) rand now) = some (m1, []) ∧
            65 ≤ ch ∧ ch ≤ 90 ∧
            cstr m1.game.validCharList = cstr m.game.validCharList ++ [ch] ∧
            strlen m1.game.validCharList = some (n + 1) ∧
            (m1.game.state = .GAME_STATE_RUNNING ↔ n + 1 = NUM_AVAILABLE_CHARS) ∧
            (m1.game.state = .GAME_STATE_CHOOSING_LETTERS ↔ n + 1 ≠ NUM_AVAILABLE_CHARS)) ∧
      (n = NUM_AVAILABLE_CHARS → ∀ (i : Input) (m1 : main_t) (sounds : List audios_t),
        step m i = some (m1, sounds) → m1.game.validCharList = m.game.validCharList) := by
  obtain ⟨letters, h0, hl, hpool, hA, hB, hC⟩ := (reachable_poolInv hr).letters
  refine ⟨letters.length, by rw [hpool]; exact strlen_poolOf h0 hl, hl, hB, hC, ?_, ?_⟩
  · intro hst sym rand now hsym
    have hlt := hB hst
    obtain ⟨ch, hlo, hhi, hres⟩ := keyDown_draw rand now hst hsym h0 hlt hpool
    have hne : ch ≠ 0 := by omega
    have h1 : 0 ∉ letters ++ [ch] := by
      simp only [List.mem_append, List.mem_singleton, not_or]
      exact ⟨h0, fun h => hne h.symm⟩
    have hl1 : (letters ++ [ch]).length ≤ NUM_AVAILABLE_CHARS := by simpa using hlt
    refine ⟨_, ch, hres, hlo, hhi, ?_⟩
    by_cases hfull : letters.length + 1 = NUM_AVAILABLE_CHARS
    · simp only [hfull, if_true]
      refine ⟨?_, ?_, ?_, ?_⟩
      · rw [cstr_poolOf h1 hl1, hpool, cstr_poolOf h0 hl]
      · rw [strlen_poolOf h1 hl1]
        simp only [List.length_append, List.length_singleton, hfull]
      · simp [hfull]
      · simp [hfull]
    · simp only [hfull, if_false]
      refine ⟨?_, ?_, ?_, ?_⟩
      · rw [cstr_poolOf h1 hl1, hpool, cstr_poolOf h0 hl]
      · rw [strlen_poolOf h1 hl1]; simp
      · simp [hst, hfull]
      · simp [hst, hfull]
  · intro hfull i m1 sounds hs
    refine step_full_pool ?_ hs
    intro hst
    have := hB hst
    omega
/-! ## The guessed words and the score -/

/-- What `checkWordAndPlay` does to a game with the declared dimensions and
a count within the array. -/
theorem checkWordAndPlay_cases {g g1 : game_t} {sounds : List audios_t} (hs : g.sized)
    (hnum : g.guessedWordsNum ≤ MAX_GUESSED_WORDS)
    (h : checkWordAndPlay g = some (g1, sounds)) :
    (g1 = g ∧ sounds = []) ∨
    (g1 = { g with
        currentWord := List.replicate MAX_WORD_SIZE 0, currentWordSize := 0,
        lastWordT := .LAST_WORD_INVALID } ∧ sounds = [.AUDIO_INCORRECT]) ∨
    (∃ n row, strlen g.currentWord = some n ∧ 2 ≤ n ∧
      g.guessedWordsNum < MAX_GUESSED_WORDS ∧
      cstr g.currentWord ∈ dictionary g.assets ∧ cstr g.currentWord ∉ guessed g ∧
      row.length = MAX_WORD_SIZE ∧ cstr row = cstr g.currentWord ∧
      g1 = { g with
        currentWord := List.replicate MAX_WORD_SIZE 0, currentWordSize := 0,
        guessedWords := g.guessedWords.set g.guessedWordsNum row,
        guessedWordsNum := g.guessedWordsNum + 1,
        points := g.points + lengthBucket n,
        lastWordT := .LAST_WORD_VALID } ∧ sounds = [.AUDIO_CORRECT]) := by
  cases hn : strlen g.currentWord with
  | none => simp [checkWordAndPlay, hn] at h
  | some n =>
    by_cases h2 : 2 ≤ n
    · by_cases hd : cstr g.currentWord ∈ dictionary g.assets
      · by_cases hu : cstr g.currentWord ∈ guessed g
        · rw [checkWordAndPlay_used hs hn h2 hnum hd hu] at h
          simp only [Option.some.injEq, Prod.mk.injEq] at h
          exact Or.inr (Or.inl ⟨h.1.symm, h.2.symm⟩)
        · rcases Nat.lt_or_ge g.guessedWordsNum MAX_GUESSED_WORDS with hroom | hfull
          · obtain ⟨row, hrl, hrc, hres⟩ := checkWordAndPlay_new hs hn h2 hroom hd hu
            rw [hres] at h
            simp only [Option.some.injEq, Prod.mk.injEq] at h
            exact Or.inr (Or.inr ⟨n, row, rfl, h2, hroom, hd, hu, hrl, hrc, h.1.symm, h.2.symm⟩)
          · rw [checkWordAndPlay_full hs hn h2 (Nat.le_antisymm hnum hfull) hd hu] at h
            exact absurd h (by simp)
      · rw [checkWordAndPlay_not_in_dictionary hs hn h2 hd] at h
        simp only [Option.some.injEq, Prod.mk.injEq] at h
        exact Or.inr (Or.inl ⟨h.1.symm, h.2.symm⟩)
    · rw [checkWordAndPlay_short hn (by omega)] at h
      simp only [Option.some.injEq, Prod.mk.injEq] at h
      exact Or.inl ⟨h.1.symm, h.2.symm⟩

/-- The words and the score change only in a submission. -/
theorem step_words {m m1 : main_t} {i : Input} {sounds : List audios_t}
    (h : step m i = some (m1, sounds)) :
    (m1.game.guessedWords = m.game.guessedWords ∧
      m1.game.guessedWordsNum = m.game.guessedWordsNum ∧
      m1.game.points = m.game.points ∧ m1.game.assets = m.game.assets ∧
      m1.game.currentWord.length = m.game.currentWord.length ∧
      m1.game.validCharList.length = m.game.validCharList.length) ∨
    (m.game.state = .GAME_STATE_RUNNING ∧
      (∃ rand now, i = .event (.SDL_KEYDOWN SDLK_RETURN) rand now) ∧
      ∃ g1, checkWordAndPlay m.game = some (g1, sounds) ∧ m1 = { m with game := g1 }) := by
  cases i with
  | tick actual =>
    rcases timerTick_outcome h with ⟨_, rfl, _⟩ | ⟨_, before, _, rfl⟩ <;>
      exact Or.inl ⟨rfl, rfl, rfl, rfl, rfl, rfl⟩
  | event e rand now =>
    rcases handleEvent_outcome h with rfl | ⟨rfl, rfl⟩ | ⟨w, ht, rfl⟩ | ⟨sym, rfl, hk⟩
    · exact Or.inl ⟨rfl, rfl, rfl, rfl, rfl, rfl⟩
    · exact Or.inl ⟨rfl, rfl, rfl, rfl, rfl, rfl⟩
    · exact Or.inl ⟨rfl, rfl, rfl, rfl, rfl, rfl⟩
    · rcases keyDown_outcome hk with rfl | ⟨_, rfl, rfl⟩ | ⟨_, rfl, rfl⟩ |
        ⟨_, _, ch, j, n, _, _, _, _, ⟨_, rfl⟩ | ⟨_, rfl⟩⟩ | ⟨hst, rfl, g1, hc, rfl⟩ |
        ⟨_, _, cw, sz, hcw, rfl⟩ | ⟨_, rfl, rfl⟩
      · exact Or.inl ⟨rfl, rfl, rfl, rfl, rfl, rfl⟩
      · exact Or.inl ⟨rfl, rfl, rfl, rfl, rfl, rfl⟩
      · exact Or.inl ⟨rfl, rfl, rfl, rfl, rfl, rfl⟩
      · exact Or.inl ⟨rfl, rfl, rfl, rfl, rfl, List.length_set _ _ _⟩
      · exact Or.inl ⟨rfl, rfl, rfl, rfl, rfl, List.length_set _ _ _⟩
      · exact Or.inr ⟨hst, ⟨rand, now, rfl⟩, g1, hc, rfl⟩
      · exact Or.inl ⟨rfl, rfl, rfl, rfl, hcw, rfl⟩
      · exact Or.inl ⟨rfl, rfl, rfl, rfl, rfl, rfl⟩

theorem initialGame_sized {assets : assets_t} (ha : assets.sized) :
    (initialGame assets).sized := by
  refine ⟨by simp [initialGame], by simp [initialGame], by simp [initialGame], ?_, ha⟩
  intro r hr
  simp only [initialGame] at hr
  rw [List.eq_of_mem_replicate hr]
  simp

theorem wordsInv_init {assets : assets_t} (ha : assets.sized) :
    WordsInv assets (initialMain assets) where
  sized := initialGame_sized ha
  assets_eq := rfl
  num_le := Nat.zero_le _
  nodup := by simp [guessed, initialMain, initialGame]
  sub := by simp [guessed, initialMain, initialGame]
  points_nonneg := le_refl _
  points_le := by simp [initialMain, initialGame]

theorem wordsInv_checkWordAndPlay {assets : assets_t} {m : main_t} {g1 : game_t}
    {sounds : List audios_t} (hw : WordsInv assets m)
    (h : checkWordAndPlay m.game = some (g1, sounds)) :
    WordsInv assets { m with game := g1 } := by
  rcases checkWordAndPlay_cases hw.sized hw.num_le h with ⟨rfl, _⟩ | ⟨rfl, _⟩ |
    ⟨n, row, hn, h2, hroom, hd, hu, hrl, hrc, rfl, _⟩
  · exact hw
  · exact
      { sized := ⟨by simp, hw.sized.2.1, hw.sized.2.2.1, hw.sized.2.2.2.1, hw.sized.2.2.2.2⟩
        assets_eq := hw.assets_eq
        num_le := hw.num_le
        nodup := hw.nodup
        sub := hw.sub
        points_nonneg := hw.points_nonneg
        points_le := hw.points_le }
  · have hidx : m.game.guessedWordsNum < m.game.guessedWords.length := by
      rw [hw.sized.2.2.1]; exact hroom
    have hg : guessed { m.game with
        currentWord := List.replicate MAX_WORD_SIZE 0, currentWordSize := 0,
        guessedWords := m.game.guessedWords.set m.game.guessedWordsNum row,
        guessedWordsNum := m.game.guessedWordsNum + 1,
        points := m.game.points + lengthBucket n,
        lastWordT := .LAST_WORD_VALID } = guessed m.game ++ [cstr m.game.currentWord] := by
      rw [← hrc]
      exact guessed_after_store m.game row hidx _ rfl rfl
    have hpos := lengthBucket_pos n
    have hle := lengthBucket_le n
    have hpn := hw.points_nonneg
    have hpl := hw.points_le
    refine
      { sized := ⟨by simp, hw.sized.2.1, by simp [hw.sized.2.2.1], ?_, hw.sized.2.2.2.2⟩
        assets_eq := hw.assets_eq
        num_le := hroom
        nodup := ?_
        sub := ?_
        points_nonneg := ?_
        points_le := ?_ }
    · intro r hr
      rcases List.mem_or_eq_of_mem_set hr with h | h
      · exact hw.sized.2.2.2.1 r h
      · rw [h]; exact hrl
    · simp only [hg]
      rw [List.nodup_append]
      refine ⟨hw.nodup, List.nodup_singleton _, ?_⟩
      intro a ha hb
      rw [List.mem_singleton] at hb
      exact hu (hb ▸ ha)
    · simp only [hg]
      intro w hwm
      rcases List.mem_append.1 hwm with h | h
      · exact hw.sub w h
      · rw [List.mem_singleton] at h
        rw [h, ← hw.assets_eq]; exact hd
    · simp only; omega
    · simp only; push_cast; omega

theorem wordsInv_step {assets : assets_t} {m m1 : main_t} {i : Input}
    {sounds : List audios_t} (hw : WordsInv assets m)
    (h : step m i = some (m1, sounds)) : WordsInv assets m1 := by
  rcases step_words h with ⟨h1, h2, h3, h4, h5, h6⟩ | ⟨_, _, g1, hc, rfl⟩
  · have hg : guessed m1.game = guessed m.game := by simp [guessed, h1, h2]
    exact
      { sized := ⟨h5.trans hw.sized.1, h6.trans hw.sized.2.1, by rw [h1]; exact hw.sized.2.2.1,
          by rw [h1]; exact hw.sized.2.2.2.1, by rw [h4]; exact hw.sized.2.2.2.2⟩
        assets_eq := h4.trans hw.assets_eq
        num_le := by rw [h2]; exact hw.num_le
        nodup := by rw [hg]; exact hw.nodup
        sub := by rw [hg]; exact hw.sub
        points_nonneg := by rw [h3]; exact hw.points_nonneg
        points_le := by rw [h3, h2]; exact hw.points_le }
  · exact wordsInv_checkWordAndPlay hw hc

theorem reachable_wordsInv {assets : assets_t} {m : main_t} (ha : assets.sized)
    (hr : Reachable assets m) : WordsInv assets m := by
  induction hr with
  | init => exact wordsInv_init ha
  | step i _ hs ih => exact wordsInv_step ih hs

/-- C9: the guessed-word list never holds a word twice.  `checkWordAndPlay`
keeps the first `guessedWordsNum` rows pairwise distinct, whatever the
current word and the dictionary; of all the steps of the loop only the
submission in the Running phase writes to the list; the list starts empty;
hence the guessed words are pairwise distinct in every reachable state. -/
theorem guessed_words_distinct :
    (∀ (g g1 : game_t) (sounds : List audios_t), g.sized →
      g.guessedWordsNum ≤ MAX_GUESSED_WORDS → (guessed g).Nodup →
      checkWordAndPlay g = some (g1, sounds) → (guessed g1).Nodup) ∧
    (∀ (m : main_t) (i : Input) (m1 : main_t) (sounds : List audios_t),
      step m i = some (m1, sounds) →
        (m1.game.guessedWords = m.game.guessedWords ∧
          m1.game.guessedWordsNum = m.game.guessedWordsNum) ∨
        (m.game.state = .GAME_STATE_RUNNING ∧
          (∃ rand now, i = .event (.SDL_KEYDOWN SDLK_RETURN) rand now) ∧
          checkWordAndPlay m.game = some (m1.game, sounds))) ∧
    (∀ assets : assets_t, guessed (initialMain assets).game = []) ∧
    (∀ (assets : assets_t) (m : main_t), assets.sized → Reachable assets m →
      (guessed m.game).Nodup) := by
  refine ⟨?_, ?_, ?_, ?_⟩
  · intro g g1 sounds hs hnum hnd h
    rcases checkWordAndPlay_cases hs hnum h with ⟨rfl, _⟩ | ⟨rfl, _⟩ |
      ⟨n, row, hn, h2, hroom, hd, hu, hrl, hrc, rfl, _⟩
    · exact hnd
    · exact hnd
    · have hidx : g.guessedWordsNum < g.guessedWords.length := by
        rw [hs.2.2.1]; exact hroom
      rw [guessed_after_store g row hidx _ rfl rfl, List.nodup_append]
      refine ⟨hnd, List.nodup_singleton _, ?_⟩
      intro a ha hb
      rw [List.mem_singleton] at hb
      rw [hrc] at hb
      exact hu (hb ▸ ha)
  · intro m i m1 sounds h
    rcases step_words h with ⟨h1, h2, _⟩ | ⟨hst, hi, g1, hc, rfl⟩
    · exact Or.inl ⟨h1, h2⟩
    · exact Or.inr ⟨hst, hi, hc⟩
  · intro assets
    simp [guessed, initialMain, initialGame]
  · intro assets m ha hr
    exact (reachable_wordsInv ha hr).nodup
theorem wordsInv_num_le_numWords {assets : assets_t} {m : main_t} (hw : WordsInv assets m) :
    m.game.guessedWordsNum ≤ assets.numWords := by
  have h1 : (guessed m.game).length = m.game.guessedWordsNum := by
    simp only [guessed, List.length_map, List.length_take]
    have := hw.num_le
    rw [hw.sized.2.2.1]
    omega
  have h2 : (dictionary assets).length ≤ assets.numWords := by
    simp only [dictionary, List.length_map, List.length_take]
    omega
  have h3 : (guessed m.game).length ≤ (dictionary assets).length :=
    (hw.nodup.subperm (fun w hwm => hw.sub w hwm)).length_le
  omega

/-- C10: the score never decreases.  In every step of the loop the points
after the step are at least the points before it, and they change only in a
submission in the Running phase that `checkWordAndPlay` accepts (the count
of guessed words grows, the outcome is `LAST_WORD_VALID`), where they
strictly increase; in a reachable state the accepted word is a dictionary
word that was not guessed before.  In every reachable state the points are
between 0 and 11 times the number of dictionary words, which is at most
11 * `MAX_WORDS`, below the largest `int`. -/
theorem score_never_decreases :
    (∀ (m : main_t) (i : Input) (m1 : main_t) (sounds : List audios_t),
      step m i = some (m1, sounds) →
        m.game.points ≤ m1.game.points ∧
        (m1.game.points ≠ m.game.points →
          m.game.state = .GAME_STATE_RUNNING ∧
          (∃ rand now, i = .event (.SDL_KEYDOWN SDLK_RETURN) rand now) ∧
          checkWordAndPlay m.game = some (m1.game, sounds) ∧
          sounds = [.AUDIO_CORRECT] ∧
          m1.game.guessedWordsNum = m.game.guessedWordsNum + 1 ∧
          m1.game.lastWordT = .LAST_WORD_VALID ∧
          m.game.points < m1.game.points)) ∧
    (∀ (assets : assets_t) (m : main_t), assets.sized → Reachable assets m →
      ∀ (i : Input) (m1 : main_t) (sounds : List audios_t),
        step m i = some (m1, sounds) → m1.game.points ≠ m.game.points →
          cstr m.game.currentWord ∈ dictionary assets ∧
          cstr m.game.currentWord ∉ guessed m.game ∧
          guessed m1.game = guessed m.game ++ [cstr m.game.currentWord]) ∧
    (∀ (assets : assets_t) (m : main_t), assets.sized → assets.numWords ≤ MAX_WORDS →
      Reachable assets m →
        0 ≤ m.game.points ∧ m.game.points ≤ 11 * (assets.numWords : Int) ∧
        11 * (assets.numWords : Int) ≤ 11 * (MAX_WORDS : Int) ∧
        m.game.points ≤ INT_MAX) := by
  refine ⟨?_, ?_, ?_⟩
  · intro m i m1 sounds h
    rcases step_words h with ⟨_, _, h3, _⟩ | ⟨hst, hi, g1, hc, rfl⟩
    · exact ⟨by rw [h3], fun hne => absurd h3 hne⟩
    · rcases checkWordAndPlay_outcome hc with ⟨rfl, _⟩ | ⟨c, rfl, _⟩ | ⟨c, row, p, hp, rfl, hsnd⟩
      · exact ⟨le_refl _, fun hne => absurd rfl hne⟩
      · exact ⟨le_refl _, fun hne => absurd rfl hne⟩
      · refine ⟨by simp only; omega, fun _ => ⟨hst, hi, hc, hsnd, rfl, rfl, by simp only; omega⟩⟩
  · intro assets m ha hr i m1 sounds h hne
    have hw := reachable_wordsInv ha hr
    rcases step_words h with ⟨_, _, h3, _⟩ | ⟨hst, hi, g1, hc, rfl⟩
    · exact absurd h3 hne
    · rcases checkWordAndPlay_cases hw.sized hw.num_le hc with ⟨rfl, _⟩ | ⟨rfl, _⟩ |
        ⟨n, row, hn, h2, hroom, hd, hu, hrl, hrc, rfl, _⟩
      · exact absurd rfl hne
      · exact absurd rfl hne
      · have hidx : m.game.guessedWordsNum < m.game.guessedWords.length := by
          rw [hw.sized.2.2.1]; exact hroom
        refine ⟨by rw [← hw.assets_eq]; exact hd, hu, ?_⟩
        rw [← hrc]
        exact guessed_after_store m.game row hidx _ rfl rfl
  · intro assets m ha hmax hr
    have hw := reachable_wordsInv ha hr
    have h1 := wordsInv_num_le_numWords hw
    have h2 := hw.points_le
    have h3 := hw.points_nonneg
    have h4 : (m.game.guessedWordsNum : Int) ≤ (assets.numWords : Int) := by exact_mod_cast h1
    have h5 : (assets.numWords : Int) ≤ (MAX_WORDS : Int) := by exact_mod_cast hmax
    have h6 : (MAX_WORDS : Int) = 130000 := by simp [MAX_WORDS]
    refine ⟨h3, by omega, by omega, ?_⟩
    simp only [INT_MAX]
    omega

/-! ## The current word -/

theorem cstr_of_no_zero {w : List Nat} (hw : 0 ∉ w) : cstr w = w := by
  induction w with
  | nil => rfl
  | cons c w ih =>
    have hc : c ≠ 0 := fun h => hw (by simp [h])
    have hw1 : 0 ∉ w := fun h => hw (by simp [h])
    rw [cstr_cons_ne hc, ih hw1]

theorem strlen_of_no_zero {w : List Nat} (hw : 0 ∉ w) : strlen w = none := by
  induction w with
  | nil => rfl
  | cons c w ih =>
    have hc : c ≠ 0 := fun h => hw (by simp [h])
    have hw1 : 0 ∉ w := fun h => hw (by simp [h])
    simp [strlen, hc, ih hw1]

theorem cstr_rowOf {typed : List Nat} (h0 : 0 ∉ typed) : cstr (rowOf typed) = typed := by
  unfold rowOf
  cases MAX_WORD_SIZE - typed.length with
  | zero => simp [cstr_of_no_zero h0]
  | succ k => rw [List.replicate_succ, cstr_append_zero h0]

theorem take_rowOf (typed : List Nat) : (rowOf typed).take typed.length = typed := by
  unfold rowOf
  simp

theorem length_rowOf {typed : List Nat} (hl : typed.length ≤ MAX_WORD_SIZE) :
    (rowOf typed).length = MAX_WORD_SIZE := by
  unfold rowOf
  simp
  omega

theorem strlen_rowOf {typed : List Nat} (h0 : 0 ∉ typed)
    (hl : typed.length < MAX_WORD_SIZE) : strlen (rowOf typed) = some typed.length := by
  unfold rowOf
  have : MAX_WORD_SIZE - typed.length = (MAX_WORD_SIZE - typed.length - 1) + 1 := by omega
  rw [this, List.replicate_succ, strlen_append_zero h0]

theorem strlen_rowOf_full {typed : List Nat} (h0 : 0 ∉ typed)
    (hl : MAX_WORD_SIZE ≤ typed.length) : strlen (rowOf typed) = none := by
  unfold rowOf
  have : MAX_WORD_SIZE - typed.length = 0 := by omega
  rw [this]
  simp [strlen_of_no_zero h0]

theorem rowOf_set {typed : List Nat} (hl : typed.length < MAX_WORD_SIZE) (c : Nat) :
    (rowOf typed).set typed.length c = rowOf (typed ++ [c]) := by
  unfold rowOf
  have : MAX_WORD_SIZE - typed.length = (MAX_WORD_SIZE - (typed ++ [c]).length) + 1 := by
    simp
    omega
  rw [this, List.replicate_succ]
  simp [List.set_append]

theorem rowOf_set_dropLast {typed : List Nat} (hl : typed.length ≤ MAX_WORD_SIZE)
    (hpos : 0 < typed.length) :
    (rowOf typed).set (typed.length - 1) 0 = rowOf typed.dropLast := by
  rcases List.eq_nil_or_concat typed with h | ⟨init, x, h⟩
  · rw [h] at hpos; simp at hpos
  · rw [List.concat_eq_append] at h
    subst h
    have hl1 : init.length + 1 ≤ MAX_WORD_SIZE := by simpa using hl
    unfold rowOf
    have h1 : MAX_WORD_SIZE - init.length = (MAX_WORD_SIZE - (init ++ [x]).length) + 1 := by
      simp
      omega
    simp only [List.dropLast_concat, h1, List.replicate_succ]
    simp [List.set_append]

theorem strrchr_spec {s : List Nat} {n : Nat} (h : strlen s = some n) (c : Nat) :
    ∃ r, strrchr s c = some r ∧ (r ≠ none ↔ c ∈ cstr s ∨ c = 0) := by
  induction s generalizing n with
  | nil => simp [strlen] at h
  | cons a t ih =>
    by_cases ha : a = 0
    · subst ha
      refine ⟨if c = 0 then some 0 else none, by simp [strrchr], ?_⟩
      rw [cstr_cons_zero]
      by_cases hc : c = 0 <;> simp [hc]
    · simp only [strlen, ha, if_false, Option.map_eq_some'] at h
      obtain ⟨k, hk, _⟩ := h
      obtain ⟨r, hr, hiff⟩ := ih hk
      rw [cstr_cons_ne ha]
      cases r with
      | some i =>
        refine ⟨some (i + 1), by simp [strrchr, ha, hr], ?_⟩
        have := hiff.1 (by simp)
        constructor
        · intro _
          rcases this with h1 | h1
          · exact Or.inl (List.mem_cons_of_mem _ h1)
          · exact Or.inr h1
        · intro _; simp
      | none =>
        have hno : ¬ (c ∈ cstr t ∨ c = 0) := fun h1 => absurd (hiff.2 h1) (by simp)
        refine ⟨if a = c then some 0 else none, by simp [strrchr, ha, hr], ?_⟩
        by_cases hac : a = c
        · simp [hac]
        · simp only [hac, if_false, ne_eq, not_true_eq_false, false_iff]
          intro h1
          rcases h1 with h1 | h1
          · rcases List.mem_cons.1 h1 with h2 | h2
            · exact hac h2.symm
            · exact hno (Or.inl h2)
          · exact hno (Or.inr h1)

theorem toupper_letter {sym : Int} (h : isalpha sym = true) :
    65 ≤ (toupper sym).toNat ∧ (toupper sym).toNat ≤ 90 := by
  simp only [isalpha, Bool.or_eq_true, Bool.and_eq_true, decide_eq_true_eq] at h
  unfold toupper
  split_ifs with h1
  · omega
  · omega
/-- What `checkWordAndPlay` does to the current word: nothing for a word
shorter than 2, the `memset` otherwise. -/
theorem checkWordAndPlay_currentWord {g g1 : game_t} {sounds : List audios_t}
    (h : checkWordAndPlay g = some (g1, sounds)) :
    (g1.currentWord = g.currentWord ∧ g1.currentWordSize = g.currentWordSize) ∨
    (memset g.currentWord 0 MAX_WORD_SIZE = some g1.currentWord ∧ g1.currentWordSize = 0) := by
  unfold checkWordAndPlay at h
  dsimp only at h
  cases h0 : strlen g.currentWord with
  | none => simp [h0] at h
  | some len =>
    by_cases h1 : len > 1
    · simp only [h0, Option.bind_eq_bind, Option.some_bind, h1, if_true] at h
      cases h2 : strcpy (List.replicate MAX_WORD_SIZE 0) g.currentWord with
      | none => simp [h2] at h
      | some word =>
        simp only [h2, Option.some_bind] at h
        cases h3 : memset g.currentWord 0 MAX_WORD_SIZE with
        | none => simp [h3] at h
        | some cleared =>
          simp only [h3, Option.some_bind] at h
          refine Or.inr ?_
          cases h4 : searchWord word g.assets.words g.assets.numWords with
          | none => simp [h4] at h
          | some valid =>
            cases valid with
            | false =>
              simp only [h4, Option.some_bind, Bool.false_eq_true, if_false, Option.some.injEq,
                Prod.mk.injEq] at h
              rw [← h.1]
              exact ⟨rfl, rfl⟩
            | true =>
              simp only [h4, Option.some_bind, if_true] at h
              cases h5 : searchWord word g.guessedWords g.guessedWordsNum with
              | none => simp [h5] at h
              | some used =>
                cases used with
                | false =>
                  simp only [h5, Option.some_bind, Bool.not_false, if_true] at h
                  cases h6 : g.guessedWords[g.guessedWordsNum]? with
                  | none => simp [h6] at h
                  | some row =>
                    simp only [h6, Option.some_bind] at h
                    cases h7 : strcpy row word with
                    | none => simp [h7] at h
                    | some row1 =>
                      simp only [h7, Option.some_bind] at h
                      cases h8 : strlen word with
                      | none => simp [h8] at h
                      | some k =>
                        simp only [h8, Option.some_bind, Option.some.injEq, Prod.mk.injEq] at h
                        rw [← h.1]
                        exact ⟨rfl, rfl⟩
                | true =>
                  simp only [h5, Option.some_bind, Bool.not_true, Bool.false_eq_true, if_false,
                    Option.some.injEq, Prod.mk.injEq] at h
                  rw [← h.1]
                  exact ⟨rfl, rfl⟩
    · simp only [h0, Option.bind_eq_bind, Option.some_bind, h1, if_false, Option.some.injEq,
        Prod.mk.injEq] at h
      rw [← h.1]
      exact Or.inl ⟨rfl, rfl⟩

/-- A letter key, or any key other than Enter and Backspace, in the Running
phase: the capital of a small or capital ASCII letter is appended when the
word has room and the pool holds it; otherwise nothing changes. -/
theorem keyDown_default {m : main_t} {typed : List Nat} {n : Nat} {sym : Int}
    (rand : Nat) (now : Int)
    (hst : m.game.state = .GAME_STATE_RUNNING)
    (h1 : sym ≠ SDLK_RETURN) (h2 : sym ≠ SDLK_BACKSPACE)
    (hw : m.game.currentWord = rowOf typed) (hsz : m.game.currentWordSize = typed.length)
    (hl : typed.length ≤ MAX_WORD_SIZE)
    (hp : strlen m.game.validCharList = some n) :
    keyDown m sym rand now = some
      (if sym < 127 ∧ isalpha sym = true then
        if typed.length < MAX_WORD_SIZE then
          if (toupper sym).toNat ∈ cstr m.game.validCharList then
            ({ m with game := { m.game with
                currentWord := rowOf (typed ++ [(toupper sym).toNat]),
                currentWordSize := typed.length + 1 } }, [])
          else (m, [.AUDIO_INCORRECT])
        else (m, [.AUDIO_INCORRECT])
      else (m, [])) := by
  unfold keyDown
  simp only [hst, if_neg h1, if_neg h2]
  by_cases h5 : sym < 127 ∧ isalpha sym = true
  · rw [if_pos h5, if_pos h5]
    by_cases h6 : typed.length < MAX_WORD_SIZE
    · have h6a : m.game.currentWordSize < MAX_WORD_SIZE := by rw [hsz]; exact h6
      rw [if_pos h6a, if_pos h6]
      obtain ⟨r, hr, hiff⟩ := strrchr_spec hp (toupper sym).toNat
      have hup := toupper_letter h5.2
      have hne : (toupper sym).toNat ≠ 0 := by omega
      simp only [hr, Option.bind_eq_bind, Option.some_bind]
      by_cases h7 : (toupper sym).toNat ∈ cstr m.game.validCharList
      · have hr1 : r ≠ none := hiff.2 (Or.inl h7)
        have h8 : m.game.currentWordSize < m.game.currentWord.length := by
          rw [hsz, hw, length_rowOf hl]; exact h6
        rw [if_pos hr1, if_pos h8, if_pos h7, hsz, hw, rowOf_set h6]
      · have hr1 : ¬ r ≠ none := by
          intro hr1
          rcases hiff.1 hr1 with h9 | h9
          · exact h7 h9
          · exact hne h9
        rw [if_neg hr1, if_neg h7]
    · have h6a : ¬ m.game.currentWordSize < MAX_WORD_SIZE := by rw [hsz]; exact h6
      rw [if_neg h6a, if_neg h6]
  · rw [if_neg h5, if_neg h5]

/-- Backspace in the Running phase: the last letter is removed, nothing
happens on an empty word. -/
theorem keyDown_backspace {m : main_t} {typed : List Nat} (rand : Nat) (now : Int)
    (hst : m.game.state = .GAME_STATE_RUNNING)
    (hw : m.game.currentWord = rowOf typed) (hsz : m.game.currentWordSize = typed.length)
    (hl : typed.length ≤ MAX_WORD_SIZE) :
    keyDown m SDLK_BACKSPACE rand now = some
      (if 0 < typed.length then
        ({ m with game := { m.game with
            currentWord := rowOf typed.dropLast,
            currentWordSize := typed.length - 1 } }, [])
      else (m, [])) := by
  have h1 : SDLK_BACKSPACE ≠ SDLK_RETURN := by decide
  unfold keyDown
  simp only [hst, if_neg h1, if_true]
  by_cases h3 : 0 < typed.length
  · have h3a : m.game.currentWordSize > 0 := by rw [hsz]; exact h3
    have h4 : m.game.currentWordSize - 1 < m.game.currentWord.length := by
      rw [hsz, hw, length_rowOf hl]; omega
    rw [if_pos h3a, if_pos h4, if_pos h3, hsz, hw, rowOf_set_dropLast hl h3]
  · have h3a : ¬ m.game.currentWordSize > 0 := by rw [hsz]; exact h3
    rw [if_neg h3a, if_neg h3]
theorem typedInv_transport {m m1 : main_t} (ht : TypedInv m)
    (hw : m1.game.currentWord = m.game.currentWord)
    (hs : m1.game.currentWordSize = m.game.currentWordSize)
    (hp : m1.game.validCharList = m.game.validCharList ∨
      m.game.state = .GAME_STATE_LOADING ∨ m.game.state = .GAME_STATE_CHOOSING_LETTERS)
    (hst : m1.game.state = .GAME_STATE_LOADING ∨
        m1.game.state = .GAME_STATE_CHOOSING_LETTERS →
      m.game.state = .GAME_STATE_LOADING ∨ m.game.state = .GAME_STATE_CHOOSING_LETTERS) :
    TypedInv m1 := by
  obtain ⟨typed, h1, h2, h3, h4, h5⟩ := ht.typed
  refine ⟨typed, hw.trans h1, hs.trans h2, h3, ?_, fun h => h5 (hst h)⟩
  rcases hp with hp | hp
  · rw [hp]; exact h4
  · intro c hc
    rw [h5 hp] at hc
    simp at hc

theorem typedInv_init (assets : assets_t) : TypedInv (initialMain assets) :=
  ⟨[], rfl, rfl, Nat.zero_le _, fun c hc => by simp at hc, fun _ => rfl⟩

theorem typedInv_step {m m1 : main_t} {i : Input} {sounds : List audios_t}
    (hp : PoolInv m) (ht : TypedInv m) (h : step m i = some (m1, sounds)) : TypedInv m1 := by
  cases i with
  | tick actual =>
    rcases timerTick_outcome h with ⟨_, rfl, _⟩ | ⟨hst, before, _, rfl⟩
    · exact ht
    · refine typedInv_transport ht rfl rfl (Or.inl rfl) ?_
      intro h1
      exfalso
      by_cases hlt : m.game.timeLeft - (actual - before) < 1
      · simp [hlt] at h1
      · simp [hlt] at h1
  | event e rand now =>
    rcases handleEvent_outcome h with rfl | ⟨rfl, rfl⟩ | ⟨w, ht1, rfl⟩ | ⟨sym, rfl, hk⟩
    · exact ht
    · exact typedInv_transport ht rfl rfl (Or.inl rfl)
        (fun h1 => by rcases h1 with h1 | h1 <;> cases h1)
    · exact typedInv_transport ht rfl rfl (Or.inl rfl) (fun h1 => h1)
    · rcases keyDown_outcome hk with rfl | ⟨hst, rfl, rfl⟩ | ⟨hst, rfl, rfl⟩ |
        ⟨hst, _, ch, j, n, _, _, _, _, ⟨_, rfl⟩ | ⟨_, rfl⟩⟩ | ⟨hst, rfl, g1, hc, rfl⟩ |
        ⟨hst, hne, _⟩ | ⟨hst, rfl, rfl⟩
      · exact ht
      · exact typedInv_transport ht rfl rfl (Or.inl rfl) (fun _ => Or.inl hst)
      · exact typedInv_transport ht rfl rfl (Or.inl rfl) (fun _ => Or.inl hst)
      · exact typedInv_transport ht rfl rfl (Or.inr (Or.inr hst)) (fun _ => Or.inr hst)
      · exact typedInv_transport ht rfl rfl (Or.inr (Or.inr hst)) (fun _ => Or.inr hst)
      · -- Enter: the word is kept or cleared
        obtain ⟨typed, h1, h2, h3, h4, h5⟩ := ht.typed
        have hs := checkWordAndPlay_state hc
        rcases checkWordAndPlay_currentWord hc with ⟨hw, hsz⟩ | ⟨hw, hsz⟩
        · exact typedInv_transport ht hw hsz (Or.inl hs.2.1)
            (fun h6 => by rw [show g1.state = m.game.state from hs.1] at h6; exact h6)
        · have hlen : m.game.currentWord.length = MAX_WORD_SIZE := by
            rw [h1]; exact length_rowOf h3
          rw [memset_sized hlen] at hw
          simp only [Option.some.injEq] at hw
          refine ⟨[], hw.symm, hsz, Nat.zero_le _, fun c hc1 => by simp at hc1, fun _ => rfl⟩
      · -- a key other than Enter
        obtain ⟨typed, h1, h2, h3, h4, h5⟩ := ht.typed
        obtain ⟨letters, h0, hl, hpool, _⟩ := hp.letters
        have hpl : strlen m.game.validCharList = some letters.length := by
          rw [hpool]; exact strlen_poolOf h0 hl
        by_cases hbs : sym = SDLK_BACKSPACE
        · subst hbs
          rw [keyDown_backspace rand now hst h1 h2 h3] at hk
          simp only [Option.some.injEq, Prod.mk.injEq] at hk
          by_cases hpos : 0 < typed.length
          · rw [if_pos hpos] at hk
            simp only [Prod.mk.injEq] at hk
            obtain ⟨rfl, _⟩ := hk
            refine ⟨typed.dropLast, rfl, by simp, by simp; omega, ?_, ?_⟩
            · intro c hc1
              exact h4 c (List.mem_of_mem_dropLast hc1)
            · intro h6; rw [hst] at h6; rcases h6 with h6 | h6 <;> cases h6
          · rw [if_neg hpos] at hk
            simp only [Prod.mk.injEq] at hk
            rw [← hk.1]; exact ht
        · rw [keyDown_default rand now hst hne hbs h1 h2 h3 hpl] at hk
          simp only [Option.some.injEq] at hk
          by_cases hA : sym < 127 ∧ isalpha sym = true
          · rw [if_pos hA] at hk
            by_cases hB : typed.length < MAX_WORD_SIZE
            · rw [if_pos hB] at hk
              by_cases hC : (toupper sym).toNat ∈ cstr m.game.validCharList
              · rw [if_pos hC] at hk
                simp only [Prod.mk.injEq] at hk
                obtain ⟨rfl, _⟩ := hk
                have hup := toupper_letter hA.2
                refine ⟨typed ++ [(toupper sym).toNat], rfl, by simp, by simpa using hB, ?_, ?_⟩
                · intro c hc1
                  rcases List.mem_append.1 hc1 with h6 | h6
                  · exact h4 c h6
                  · rw [List.mem_singleton] at h6
                    rw [h6]; exact ⟨hup.1, hup.2, hC⟩
                · intro h6; rw [hst] at h6; rcases h6 with h6 | h6 <;> cases h6
              · rw [if_neg hC] at hk
                simp only [Prod.mk.injEq] at hk
                rw [← hk.1]; exact ht
            · rw [if_neg hB] at hk
              simp only [Prod.mk.injEq] at hk
              rw [← hk.1]; exact ht
          · rw [if_neg hA] at hk
            simp only [Prod.mk.injEq] at hk
            rw [← hk.1]; exact ht
      · exact typedInv_transport ht rfl rfl (Or.inl rfl)
          (fun h1 => by rcases h1 with h1 | h1 <;> cases h1)

theorem reachable_typedInv {assets : assets_t} {m : main_t} (hr : Reachable assets m) :
    TypedInv m := by
  induction hr with
  | init => exact typedInv_init assets
  | step i hr0 hs ih => exact typedInv_step (reachable_poolInv hr0) ih hs
/-- Enter in the Running phase passes the game to `checkWordAndPlay`. -/
theorem keyDown_enter {m : main_t} (rand : Nat) (now : Int)
    (hst : m.game.state = .GAME_STATE_RUNNING) :
    keyDown m SDLK_RETURN rand now
      = (checkWordAndPlay m.game).map (fun r => ({ m with game := r.1 }, r.2)) := by
  unfold keyDown
  simp only [hst, if_true, Option.bind_eq_bind]
  cases checkWordAndPlay m.game with
  | none => rfl
  | some r => rfl

/-- A word of two or more letters is cleared by every call of
`checkWordAndPlay` that has a result. -/
theorem checkWordAndPlay_clears {g g1 : game_t} {sounds : List audios_t} {n : Nat}
    (h0 : strlen g.currentWord = some n) (h2 : 2 ≤ n)
    (h : checkWordAndPlay g = some (g1, sounds)) :
    memset g.currentWord 0 MAX_WORD_SIZE = some g1.currentWord ∧ g1.currentWordSize = 0 := by
  rcases checkWordAndPlay_currentWord h with ⟨hw, hsz⟩ | hclr
  · exfalso
    unfold checkWordAndPlay at h
    dsimp only at h
    have h1 : n > 1 := by omega
    simp only [h0, Option.bind_eq_bind, Option.some_bind, h1, if_true] at h
    cases h3 : strcpy (List.replicate MAX_WORD_SIZE 0) g.currentWord with
    | none => simp [h3] at h
    | some word =>
      simp only [h3, Option.some_bind] at h
      cases h4 : memset g.currentWord 0 MAX_WORD_SIZE with
      | none => simp [h4] at h
      | some cleared =>
        have hc : cleared = List.replicate MAX_WORD_SIZE 0 ++ g.currentWord.drop MAX_WORD_SIZE := by
          unfold memset at h4
          split_ifs at h4
          simp only [Option.some.injEq] at h4
          exact h4.symm
        have hne : g.currentWord ≠ cleared := by
          intro heq
          rw [heq, hc] at h0
          simp [MAX_WORD_SIZE, List.replicate, strlen] at h0
          omega
        simp only [h4, Option.some_bind] at h
        have key : ∀ gx : game_t, gx.currentWord = cleared → gx = g1 → False := by
          intro gx hx hg
          rw [hg] at hx
          exact hne (hw.symm.trans hx)
        cases h5 : searchWord word g.assets.words g.assets.numWords with
        | none => simp [h5] at h
        | some valid =>
          cases valid with
          | false =>
            simp only [h5, Option.some_bind, Bool.false_eq_true, if_false, Option.some.injEq,
              Prod.mk.injEq] at h
            exact key _ rfl h.1
          | true =>
            simp only [h5, Option.some_bind, if_true] at h
            cases h6 : searchWord word g.guessedWords g.guessedWordsNum with
            | none => simp [h6] at h
            | some used =>
              cases used with
              | false =>
                simp only [h6, Option.some_bind, Bool.not_false, if_true] at h
                cases h7 : g.guessedWords[g.guessedWordsNum]? with
                | none => simp [h7] at h
                | some row =>
                  simp only [h7, Option.some_bind] at h
                  cases h8 : strcpy row word with
                  | none => simp [h8] at h
                  | some row1 =>
                    simp only [h8, Option.some_bind] at h
                    cases h9 : strlen word with
                    | none => simp [h9] at h
                    | some k =>
                      simp only [h9, Option.some_bind, Option.some.injEq, Prod.mk.injEq] at h
                      exact key _ rfl h.1
              | true =>
                simp only [h6, Option.some_bind, Bool.not_true, Bool.false_eq_true, if_false,
                  Option.some.injEq, Prod.mk.injEq] at h
                exact key _ rfl h.1
  · exact hclr

/-- C11 (as amended): in every reachable state every byte of the current
word is a capital letter that occurs in the pool, and the current word is
the first `currentWordSize` cells of its buffer.  In the Running phase a key
other than Enter and Backspace appends the capital of the key only when the
key is an ASCII letter whose capital is in the pool, and does append it
while the longer word still leaves room for its terminator; any other such
key leaves `currentWord` and `currentWordSize` unchanged.  Backspace removes
only the last letter and does nothing on an empty word.  Enter passes the
game to `checkWordAndPlay`: a terminated word, whose length is
`currentWordSize`, is left untouched with the whole state when it is shorter
than 2, and is cleared (`currentWord` all zero, `currentWordSize` 0) when it
has 2 letters or more; that submission has a result unless the word is a new
dictionary word and the guessed-word list is full. -/
theorem current_word_letters_in_pool (assets : assets_t) (m : main_t)
    (hr : Reachable assets m) :
    (∀ c ∈ cstr m.game.currentWord, 65 ≤ c ∧ c ≤ 90 ∧ c ∈ cstr m.game.validCharList) ∧
    cstr m.game.currentWord = m.game.currentWord.take m.game.currentWordSize ∧
    (m.game.state = .GAME_STATE_RUNNING →
      (∀ (sym : Int) (rand : Nat) (now : Int), sym ≠ SDLK_RETURN → sym ≠ SDLK_BACKSPACE →
        ∃ m1 sounds, step m (.event (.SDL_KEYDOWN sym) rand now) = some (m1, sounds) ∧
          ((cstr m1.game.currentWord = cstr m.game.currentWord ++ [(toupper sym).toNat] ∧
              m1.game.currentWordSize = m.game.currentWordSize + 1 ∧
              sym < 127 ∧ isalpha sym = true ∧
              (toupper sym).toNat ∈ cstr m.game.validCharList) ∨
            (m1.game.currentWord = m.game.currentWord ∧
              m1.game.currentWordSize = m.game.currentWordSize)) ∧
          (¬ (sym < 127 ∧ isalpha sym = true ∧
              (toupper sym).toNat ∈ cstr m.game.validCharList) →
            m1.game.currentWord = m.game.currentWord ∧
              m1.game.currentWordSize = m.game.currentWordSize) ∧
          (sym < 127 ∧ isalpha sym = true ∧
              (toupper sym).toNat ∈ cstr m.game.validCharList ∧
              m.game.currentWordSize + 1 < MAX_WORD_SIZE →
            cstr m1.game.currentWord = cstr m.game.currentWord ++ [(toupper sym).toNat] ∧
              m1.game.currentWordSize = m.game.currentWordSize + 1)) ∧
      (∀ (rand : Nat) (now : Int),
        ∃ m1, step m (.event (.SDL_KEYDOWN SDLK_BACKSPACE) rand now) = some (m1, []) ∧
          cstr m1.game.currentWord = (cstr m.game.currentWord).dropLast ∧
          m1.game.currentWordSize = m.game.currentWordSize - 1 ∧
          (m.game.currentWordSize = 0 → m1 = m)) ∧
      (∀ (rand : Nat) (now : Int),
        step m (.event (.SDL_KEYDOWN SDLK_RETURN) rand now)
          = (checkWordAndPlay m.game).map (fun r => ({ m with game := r.1 }, r.2)) ∧
        ∀ n : Nat, strlen m.game.currentWord = some n →
          n = m.game.currentWordSize ∧
          (n < 2 → step m (.event (.SDL_KEYDOWN SDLK_RETURN) rand now) = some (m, [])) ∧
          (2 ≤ n →
            (∀ (m1 : main_t) (sounds : List audios_t),
              step m (.event (.SDL_KEYDOWN SDLK_RETURN) rand now) = some (m1, sounds) →
                m1.game.currentWord = List.replicate MAX_WORD_SIZE 0 ∧
                m1.game.currentWordSize = 0) ∧
            (assets.sized →
              ¬ (cstr m.game.currentWord ∈ dictionary assets ∧
                  cstr m.game.currentWord ∉ guessed m.game ∧
                  m.game.guessedWordsNum = MAX_GUESSED_WORDS) →
              ∃ m1 sounds,
                step m (.event (.SDL_KEYDOWN SDLK_RETURN) rand now) = some (m1, sounds))))) := by
  obtain ⟨typed, h1, h2, h3, h4, h5⟩ := (reachable_typedInv hr).typed
  obtain ⟨letters, hl0, hl, hpool, _⟩ := (reachable_poolInv hr).letters
  have hpl : strlen m.game.validCharList = some letters.length := by
    rw [hpool]; exact strlen_poolOf hl0 hl
  have h0 : 0 ∉ typed := fun h => by have := (h4 0 h).1; omega
  have hc : cstr m.game.currentWord = typed := by rw [h1]; exact cstr_rowOf h0
  refine ⟨by rw [hc]; exact h4, by rw [hc, h1, h2, take_rowOf], ?_⟩
  intro hst
  refine ⟨?_, ?_, ?_⟩
  · intro sym rand now hne hbs
    have hk := keyDown_default rand now hst hne hbs h1 h2 h3 hpl
    by_cases hA : sym < 127 ∧ isalpha sym = true
    · by_cases hB : typed.length < MAX_WORD_SIZE
      · by_cases hC : (toupper sym).toNat ∈ cstr m.game.validCharList
        · rw [if_pos hA, if_pos hB, if_pos hC] at hk
          have hup := toupper_letter hA.2
          have h01 : 0 ∉ typed ++ [(toupper sym).toNat] := by
            simp only [List.mem_append, List.mem_singleton, not_or]
            exact ⟨h0, by omega⟩
          have happ : cstr (rowOf (typed ++ [(toupper sym).toNat]))
              = cstr m.game.currentWord ++ [(toupper sym).toNat] := by
            rw [cstr_rowOf h01, hc]
          exact ⟨_, _, hk, Or.inl ⟨happ, by simp [h2], hA.1, hA.2, hC⟩,
            fun hno => absurd ⟨hA.1, hA.2, hC⟩ hno, fun _ => ⟨happ, by simp [h2]⟩⟩
        · rw [if_pos hA, if_pos hB, if_neg hC] at hk
          exact ⟨_, _, hk, Or.inr ⟨rfl, rfl⟩, fun _ => ⟨rfl, rfl⟩,
            fun hyes => absurd hyes.2.2.1 hC⟩
      · rw [if_pos hA, if_neg hB] at hk
        exact ⟨_, _, hk, Or.inr ⟨rfl, rfl⟩, fun _ => ⟨rfl, rfl⟩,
          fun hyes => absurd (Nat.lt_of_succ_lt (h2 ▸ hyes.2.2.2)) hB⟩
    · rw [if_neg hA] at hk
      exact ⟨_, _, hk, Or.inr ⟨rfl, rfl⟩, fun _ => ⟨rfl, rfl⟩,
        fun hyes => absurd ⟨hyes.1, hyes.2.1⟩ hA⟩
  · intro rand now
    have hk := keyDown_backspace rand now hst h1 h2 h3
    by_cases hpos : 0 < typed.length
    · rw [if_pos hpos] at hk
      have h02 : 0 ∉ typed.dropLast := fun h => h0 (List.mem_of_mem_dropLast h)
      refine ⟨_, hk, ?_, by simp [h2], fun hz => ?_⟩
      · simp only
        rw [cstr_rowOf h02, hc]
      · rw [h2] at hz; omega
    · rw [if_neg hpos] at hk
      have hnil : typed = [] := List.length_eq_zero.1 (by omega)
      refine ⟨m, hk, ?_, ?_, fun _ => rfl⟩
      · rw [hc, hnil]; rfl
      · rw [h2, hnil]; rfl
  · intro rand now
    have hstep : step m (.event (.SDL_KEYDOWN SDLK_RETURN) rand now)
        = (checkWordAndPlay m.game).map (fun r => ({ m with game := r.1 }, r.2)) :=
      keyDown_enter rand now hst
    refine ⟨hstep, ?_⟩
    intro n hn
    have hlen : n = m.game.currentWordSize := by
      rcases Nat.lt_or_ge typed.length MAX_WORD_SIZE with hlt | hge
      · rw [h1, strlen_rowOf h0 hlt] at hn
        simp only [Option.some.injEq] at hn
        rw [h2, hn]
      · rw [h1, strlen_rowOf_full h0 hge] at hn
        exact absurd hn (by simp)
    refine ⟨hlen, ?_, ?_⟩
    · intro hshort
      rw [hstep, checkWordAndPlay_short hn (by omega)]
      rfl
    · intro h2n
      refine ⟨?_, ?_⟩
      · intro m1 sounds hs
        rw [hstep] at hs
        cases hcw : checkWordAndPlay m.game with
        | none => simp [hcw] at hs
        | some r =>
          obtain ⟨g1, s1⟩ := r
          simp only [hcw, Option.map_some', Option.some.injEq, Prod.mk.injEq] at hs
          obtain ⟨rfl, _⟩ := hs
          obtain ⟨hw, hsz⟩ := checkWordAndPlay_clears hn h2n hcw
          have hbl : m.game.currentWord.length = MAX_WORD_SIZE := by
            rw [h1]; exact length_rowOf h3
          rw [memset_sized hbl] at hw
          simp only [Option.some.injEq] at hw
          exact ⟨hw.symm, hsz⟩
      · intro ha hnot
        have hw := reachable_wordsInv ha hr
        rw [hstep]
        by_cases hd : cstr m.game.currentWord ∈ dictionary m.game.assets
        · by_cases hu : cstr m.game.currentWord ∈ guessed m.game
          · rw [checkWordAndPlay_used hw.sized hn h2n hw.num_le hd hu]
            exact ⟨_, _, rfl⟩
          · have hroom : m.game.guessedWordsNum < MAX_GUESSED_WORDS := by
              rcases Nat.lt_or_ge m.game.guessedWordsNum MAX_GUESSED_WORDS with h | h
              · exact h
              · exact absurd ⟨hw.assets_eq ▸ hd, hu, Nat.le_antisymm hw.num_le h⟩ hnot
            obtain ⟨row, _, _, hres⟩ := checkWordAndPlay_new hw.sized hn h2n hroom hd hu
            rw [hres]
            exact ⟨_, _, rfl⟩
        · rw [checkWordAndPlay_not_in_dictionary hw.sized hn h2n hd]
          exact ⟨_, _, rfl⟩

/-! ## The letters of the guessed words and the best word -/

theorem guessedInv_init (assets : assets_t) : GuessedInv (initialMain assets) := by
  have h : guessed (initialMain assets).game = [] := by
    simp [guessed, initialMain, initialGame]
  exact ⟨by rw [h]; intro w hw; simp at hw, fun _ => h⟩

theorem guessedInv_step {assets : assets_t} {m m1 : main_t} {i : Input}
    {sounds : List audios_t} (hw : WordsInv assets m) (ht : TypedInv m)
    (hg : GuessedInv m) (h : step m i = some (m1, sounds)) : GuessedInv m1 := by
  rcases step_words h with ⟨h1, h2, _⟩ | ⟨hst, _, g1, hc, rfl⟩
  · have hgs : guessed m1.game = guessed m.game := by simp [guessed, h1, h2]
    have hrank := step_phaseRank h
    constructor
    · rw [hgs]
      by_cases hch : m.game.state = .GAME_STATE_CHOOSING_LETTERS
      · rw [hg.empty_before (Or.inr hch)]
        intro w hwm; simp at hwm
      · rw [step_full_pool hch h]
        exact hg.letters
    · intro hst1
      rw [hgs]
      apply hg.empty_before
      rcases hst1 with hst1 | hst1 <;> rw [hst1] at hrank <;>
        cases h3 : m.game.state <;> rw [h3] at hrank <;> simp [phaseRank] at hrank <;> simp
  · have hs := checkWordAndPlay_state hc
    obtain ⟨typed, ht1, ht2, ht3, ht4, ht5⟩ := ht.typed
    have h0 : 0 ∉ typed := fun h => by have := (ht4 0 h).1; omega
    have hcs : cstr m.game.currentWord = typed := by rw [ht1]; exact cstr_rowOf h0
    constructor
    · rcases checkWordAndPlay_cases hw.sized hw.num_le hc with ⟨rfl, _⟩ | ⟨rfl, _⟩ |
        ⟨n, row, hn, h2, hroom, hd, hu, hrl, hrc, rfl, _⟩
      · exact hg.letters
      · exact hg.letters
      · have hidx : m.game.guessedWordsNum < m.game.guessedWords.length := by
          rw [hw.sized.2.2.1]; exact hroom
        have hgs : guessed { m.game with
            currentWord := List.replicate MAX_WORD_SIZE 0, currentWordSize := 0,
            guessedWords := m.game.guessedWords.set m.game.guessedWordsNum row,
            guessedWordsNum := m.game.guessedWordsNum + 1,
            points := m.game.points + lengthBucket n,
            lastWordT := .LAST_WORD_VALID } = guessed m.game ++ [cstr m.game.currentWord] := by
          rw [← hrc]
          exact guessed_after_store m.game row hidx _ rfl rfl
        simp only [hgs]
        intro w hwm
        rcases List.mem_append.1 hwm with h3 | h3
        · exact hg.letters w h3
        · rw [List.mem_singleton] at h3
          rw [h3]
          refine ⟨by rw [(strlen_spec hn).2.1]; exact h2, ?_⟩
          rw [hcs]
          exact fun c hcm => (ht4 c hcm).2.2
    · intro hst1
      exfalso
      rw [show g1.state = m.game.state from hs.1, hst] at hst1
      rcases hst1 with h3 | h3 <;> cases h3

theorem reachable_guessedInv {assets : assets_t} {m : main_t} (ha : assets.sized)
    (hr : Reachable assets m) : GuessedInv m := by
  induction hr with
  | init => exact guessedInv_init assets
  | step i hr0 hs ih =>
    exact guessedInv_step (reachable_wordsInv ha hr0) (reachable_typedInv hr0) ih hs

/-- A string of the pool is usable for `findValidWord`: its letters are among
the first `NUM_AVAILABLE_CHARS` cells of the pool buffer. -/
theorem inPool_of_cstr {m : main_t} (hp : PoolInv m) {w : List Nat}
    (hw : ∀ c ∈ w, c ∈ cstr m.game.validCharList) : inPool m.game.validCharList w := by
  obtain ⟨letters, h0, hl, hpool, _⟩ := hp.letters
  intro c hc
  have h1 := hw c hc
  rw [hpool, cstr_poolOf h0 hl] at h1
  rw [hpool]
  unfold poolOf
  rw [List.take_append_eq_append_take, List.take_of_length_le hl]
  exact List.mem_append_left _ h1

/-- C14: in every reachable state every guessed word is a dictionary word of
at least two letters, all of them letters of the pool; hence the word
`findValidWord` returns for the dictionary and the pool of the game (called
on an empty output word, as `renderEndedState` does in the Ended phase) is
at least as long as every guessed word, and is not empty when a word was
guessed. -/
theorem best_word_not_beaten (assets : assets_t) (m : main_t) (ha : assets.sized)
    (ht : assets.terminated) (hr : Reachable assets m) :
    (∀ w ∈ guessed m.game, w ∈ dictionary assets ∧ 2 ≤ w.length ∧
      (∀ c ∈ w, c ∈ cstr m.game.validCharList) ∧ inPool m.game.validCharList w) ∧
    ∃ out, findValidWord m.game (List.replicate MAX_WORD_SIZE 0) = some out ∧
      (∀ w ∈ guessed m.game, w.length ≤ (cstr out).length) ∧
      (guessed m.game ≠ [] → cstr out ≠ []) := by
  have hw := reachable_wordsInv ha hr
  have hp := reachable_poolInv hr
  have hg := reachable_guessedInv ha hr
  have hinv : ∀ w ∈ guessed m.game, w ∈ dictionary assets ∧ 2 ≤ w.length ∧
      (∀ c ∈ w, c ∈ cstr m.game.validCharList) ∧ inPool m.game.validCharList w :=
    fun w hwm => ⟨hw.sub w hwm, (hg.letters w hwm).1, (hg.letters w hwm).2,
      inPool_of_cstr hp (hg.letters w hwm).2⟩
  refine ⟨hinv, ?_⟩
  have hsz := hw.sized
  have hpl : NUM_AVAILABLE_CHARS ≤ m.game.validCharList.length := by
    rw [hsz.2.1]; exact Nat.le_succ _
  have hrows : ∀ r ∈ m.game.assets.words.take m.game.assets.numWords,
      r.length = MAX_WORD_SIZE ∧ 0 ∈ r := by
    intro r hrm
    refine ⟨hsz.2.2.2.2.2 r (List.mem_of_mem_take hrm), ?_⟩
    rw [hw.assets_eq] at hrm
    exact ht r hrm
  obtain ⟨out, hout, _, hcase⟩ := findValidWordLoop_spec hpl m.game.assets.numWords
    m.game.assets.words 0 (List.replicate MAX_WORD_SIZE 0) hsz.2.2.2.2.1 hrows (by simp)
  have hdict : (m.game.assets.words.take m.game.assets.numWords).map cstr
      = dictionary assets := by rw [hw.assets_eq]; rfl
  rw [hdict] at hcase
  refine ⟨out, hout, ?_, ?_⟩
  · intro w hwm
    obtain ⟨h1, h2, _, h4⟩ := hinv w hwm
    rcases hcase with ⟨hle, _⟩ | ⟨i, best, _, hb, _, _, hmax, _⟩
    · have := hle w h1 h4
      omega
    · rw [hb]; exact hmax w h1 h4
  · intro hne
    rcases hcase with ⟨hle, _⟩ | ⟨i, best, _, hb, _, hlt, _, _⟩
    · exfalso
      obtain ⟨w, hwm⟩ := List.exists_mem_of_ne_nil _ hne
      obtain ⟨h1, h2, _, h4⟩ := hinv w hwm
      have := hle w h1 h4
      omega
    · rw [hb]
      intro h; rw [h] at hlt; simp at hlt

/-! ## Instances on the example data -/

set_option maxRecDepth 100000

theorem reachable_run {assets : assets_t} {m : main_t} (hr : Reachable assets m) :
    ∀ (inputs : List Input) (m1 : main_t), run m inputs = some m1 → Reachable assets m1 := by
  intro inputs
  induction inputs generalizing m with
  | nil =>
    intro m1 h
    simp only [run, Option.some.injEq] at h
    exact h ▸ hr
  | cons i is ih =>
    intro m1 h
    simp only [run] at h
    cases hs : step m i with
    | none => simp [hs] at h
    | some r =>
      obtain ⟨m2, s⟩ := r
      simp only [hs] at h
      exact ih (Reachable.step i hr hs) m1 h

theorem exampleMain_reachable : Reachable exampleAssets exampleMain :=
  reachable_run Reachable.init exampleDraws exampleMain (by decide)

theorem exampleSubmitted_reachable : Reachable exampleAssets exampleSubmitted :=
  reachable_run exampleMain_reachable exampleSubmit exampleSubmitted (by decide)

/-- C1 on the example: "CIBO" typed in `exampleTyped` is a new dictionary
word of length 4. -/
theorem checkWordAndPlay_scores_new_word_witness :
    ∃ g1 sounds, checkWordAndPlay exampleTyped = some (g1, sounds) ∧
      ((4 : Nat) = 2 ∨ (4 : Nat) = 3 ∨ (4 : Nat) = 4 → g1.points = exampleTyped.points + 1) ∧
      ((4 : Nat) = 5 → g1.points = exampleTyped.points + 2) ∧
      ((4 : Nat) = 6 → g1.points = exampleTyped.points + 3) ∧
      ((4 : Nat) = 7 → g1.points = exampleTyped.points + 5) ∧
      (8 ≤ 4 → g1.points = exampleTyped.points + 11) ∧
      g1.guessedWordsNum = exampleTyped.guessedWordsNum + 1 ∧
      guessed g1 = guessed exampleTyped ++ [cstr exampleTyped.currentWord] ∧
      (∀ i, i < exampleTyped.guessedWordsNum →
        g1.guessedWords[i]? = exampleTyped.guessedWords[i]?) ∧
      g1.lastWordT = .LAST_WORD_VALID :=
  checkWordAndPlay_scores_new_word exampleTyped 4 (by decide) (by decide) (by decide)
    (by decide) (by decide) (by decide)

/-- C3 on the example, and the scenario run through the main loop: after
the draws "AEIOUBCDFG", typing "cibo" and Enter gives 1 point and the
guessed words ["CIBO"]; typing and submitting it again changes neither. -/
theorem checkWordAndPlay_scores_once_witness :
    (∃ g1 sounds, checkWordAndPlay exampleTyped = some (g1, sounds) ∧
      g1.points = exampleTyped.points + lengthBucket 4 ∧
      guessed g1 = guessed exampleTyped ++ [cstr exampleTyped.currentWord] ∧
      g1.lastWordT = .LAST_WORD_VALID ∧
      ∀ k, ∃ gk, resubmit exampleTyped.currentWord k g1 = some gk ∧
        gk.points = g1.points ∧ gk.guessedWords = g1.guessedWords ∧
        gk.guessedWordsNum = g1.guessedWordsNum ∧
        (0 < k → gk.lastWordT = .LAST_WORD_INVALID)) ∧
    run (initialMain exampleAssets) exampleDraws = some exampleMain ∧
    (run (initialMain exampleAssets) (exampleDraws ++ exampleSubmit)).map
      (fun m => (m.game.points, guessed m.game, m.game.lastWordT))
        = some (1, [CIBO], .LAST_WORD_VALID) ∧
    (run (initialMain exampleAssets) (exampleDraws ++ exampleSubmit ++ exampleSubmit)).map
      (fun m => (m.game.points, guessed m.game, m.game.lastWordT))
        = some (1, [CIBO], .LAST_WORD_INVALID) :=
  ⟨checkWordAndPlay_scores_once exampleTyped 4 (by decide) (by decide) (by decide)
    (by decide) (by decide) (by decide), by decide, by decide, by decide⟩

/-- C4 on the example: with the single letter "C" typed, Enter changes
nothing. -/
theorem checkWordAndPlay_short_word_noop_witness :
    checkWordAndPlay { exampleRunning with currentWord := rowOf [67], currentWordSize := 1 }
      = some ({ exampleRunning with currentWord := rowOf [67], currentWordSize := 1 }, []) :=
  checkWordAndPlay_short_word_noop
    { exampleRunning with currentWord := rowOf [67], currentWordSize := 1 } 1
    (by decide) (by decide)

/-- C5 on the example: with the dictionary ["ABICO"] and the pool
"AEIOUBCDFG" the result is "ABICO"; with "CIBO" and "BACI" in the
dictionary, two usable words of the same length, it is the first, "CIBO". -/
theorem findValidWord_longest_first_witness :
    (∃ out, findValidWord exampleEnded (List.replicate MAX_WORD_SIZE 0) = some out ∧
      ((∀ w ∈ dictionary exampleEnded.assets, w ≠ [] →
          ¬ inPool exampleEnded.validCharList w) → cstr out = []) ∧
      ((∃ w ∈ dictionary exampleEnded.assets, w ≠ [] ∧ inPool exampleEnded.validCharList w) →
        ∃ i best, (dictionary exampleEnded.assets)[i]? = some best ∧ cstr out = best ∧
          best ≠ [] ∧ inPool exampleEnded.validCharList best ∧
          (∀ w ∈ dictionary exampleEnded.assets, inPool exampleEnded.validCharList w →
            w.length ≤ best.length) ∧
          (∀ (j : Nat) (w : List Nat), j < i → (dictionary exampleEnded.assets)[j]? = some w →
            inPool exampleEnded.validCharList w → w.length < best.length))) ∧
    findValidWord exampleEnded (List.replicate MAX_WORD_SIZE 0) = some (rowOf ABICO) ∧
    findValidWord exampleTie (List.replicate MAX_WORD_SIZE 0) = some (rowOf CIBO) :=
  ⟨findValidWord_longest_first exampleEnded (by decide) (by decide), by decide, by decide⟩

/-- C6 on the example: the run `exampleDraws` from the initial state goes
from Loading to Running, a later phase. -/
theorem phase_follows_transition_relation_witness :
    phaseRank (initialMain exampleAssets).game.state ≤ phaseRank exampleMain.game.state :=
  phase_follows_transition_relation.2.1 (initialMain exampleAssets) exampleDraws exampleMain
    (by decide)

/-- C7 on the example: in the reachable state `exampleMain` the pool is
full. -/
theorem pool_fills_to_capacity_witness :
    ∃ n, strlen exampleMain.game.validCharList = some n ∧ n ≤ NUM_AVAILABLE_CHARS ∧
      (exampleMain.game.state = .GAME_STATE_RUNNING ∨
        exampleMain.game.state = .GAME_STATE_ENDED → n = NUM_AVAILABLE_CHARS) :=
  let ⟨n, h1, h2, _, h4, _⟩ :=
    pool_fills_to_capacity exampleAssets exampleMain exampleMain_reachable
  ⟨n, h1, h2, h4⟩

/-- C8 on the example: a tick 3 seconds after `before` takes `timeLeft` from
120 to 117 and the game keeps running. -/
theorem timer_subtracts_elapsed_witness :
    ∃ m1 sounds, step exampleMain (.tick 1003) = some (m1, sounds) ∧
      m1.game.timeLeft = exampleMain.game.timeLeft - (1003 - 1000) ∧
      m1.before = some 1003 ∧
      (m1.game.state = .GAME_STATE_ENDED ↔ m1.game.timeLeft ≤ 0) ∧
      (m1.game.state = .GAME_STATE_RUNNING ↔ ¬ m1.game.timeLeft ≤ 0) :=
  timer_subtracts_elapsed.1 exampleMain 1003 1000 (by decide) (by decide)

/-- C9 on the example: the guessed words of the reachable state
`exampleSubmitted` are pairwise distinct. -/
theorem guessed_words_distinct_witness : (guessed exampleSubmitted.game).Nodup :=
  guessed_words_distinct.2.2.2 exampleAssets exampleSubmitted (by decide)
    exampleSubmitted_reachable

/-- C10 on the example: the points of the reachable state `exampleSubmitted`
are within the bound. -/
theorem score_never_decreases_witness :
    0 ≤ exampleSubmitted.game.points ∧
      exampleSubmitted.game.points ≤ 11 * (exampleAssets.numWords : Int) ∧
      11 * (exampleAssets.numWords : Int) ≤ 11 * (MAX_WORDS : Int) ∧
      exampleSubmitted.game.points ≤ INT_MAX :=
  score_never_decreases.2.2 exampleAssets exampleSubmitted (by decide) (by decide)
    exampleSubmitted_reachable

/-! ## The capacity of the guessed-word list and of the current word -/

set_option maxRecDepth 1000000

theorem exampleTypedMain_reachable : Reachable exampleAssets exampleTypedMain :=
  reachable_run exampleMain_reachable exampleType exampleTypedMain (by decide)

/-- C11 on the example: in the reachable state in which "CIBO" is typed the
current word is made of capital letters of the pool. -/
theorem current_word_letters_in_pool_witness :
    (∀ c ∈ cstr exampleTypedMain.game.currentWord,
      65 ≤ c ∧ c ≤ 90 ∧ c ∈ cstr exampleTypedMain.game.validCharList) ∧
    cstr exampleTypedMain.game.currentWord
      = exampleTypedMain.game.currentWord.take exampleTypedMain.game.currentWordSize :=
  let ⟨h1, h2, _⟩ :=
    current_word_letters_in_pool exampleAssets exampleTypedMain exampleTypedMain_reachable
  ⟨h1, h2⟩

/-- C11, the claim as stated fails at Enter: in the reachable Running state
in which "CIBO" is typed, Enter is not a letter key and not Backspace, and
the step it triggers changes `currentWord` and `currentWordSize`. -/
theorem enter_key_changes_current_word :
    run (initialMain exampleAssets) (exampleDraws ++ exampleType) = some exampleTypedMain ∧
    exampleTypedMain.game.state = .GAME_STATE_RUNNING ∧
    isalpha SDLK_RETURN = false ∧ SDLK_RETURN ≠ SDLK_BACKSPACE ∧
    ∃ m1 sounds, step exampleTypedMain (.event (.SDL_KEYDOWN SDLK_RETURN) 0 0)
        = some (m1, sounds) ∧
      exampleTypedMain.game.currentWord = rowOf CIBO ∧
      exampleTypedMain.game.currentWordSize = 4 ∧
      m1.game.currentWord = List.replicate MAX_WORD_SIZE 0 ∧
      m1.game.currentWordSize = 0 ∧
      m1.game.currentWord ≠ exampleTypedMain.game.currentWord ∧
      m1.game.currentWordSize ≠ exampleTypedMain.game.currentWordSize := by
  refine ⟨by decide, by decide, by decide, by decide, ?_⟩
  refine ⟨exampleSubmitted, [.AUDIO_CORRECT], by decide, by decide, by decide, by decide,
    by decide, by decide, by decide⟩

/-- C3, the claim as stated fails on a full guessed-word list: in the same
play the 65th word, a dictionary word of length 2 that is not yet guessed,
is submitted for the first time with 64 points on the board; the submission
is not scored, since neither `checkWordAndPlay` nor the Enter key has a
result, while the bucket of its length is 1. -/
theorem full_list_first_submission_not_scored :
    (run (initialMain pairAssets) (exampleDraws ++ submitPairs 64 ++ typePair 64)).map
      (fun m => (cstr m.game.currentWord, m.game.points,
        decide (cstr m.game.currentWord ∈ dictionary m.game.assets ∧
          cstr m.game.currentWord ∉ guessed m.game),
        (checkWordAndPlay m.game).map (fun r => r.1.points),
        (step m (key SDLK_RETURN 0 0)).map (fun r => r.1.game.points)))
      = some (pairWord 64, 64, true, none, none) ∧
    (pairWord 64).length = 2 ∧ lengthBucket 2 = 1 := by
  refine ⟨by decide, by decide, by decide⟩

/-- C12, the code at the failing input: with a dictionary of 65 two-letter
words over the pool "AEIOUBCDFG", typing and submitting the first 64 and
typing the 65th leads to a Running state with `guessedWordsNum` = 64, the
size of `guessedWords`, and a current word that is in the dictionary and
not yet guessed; `checkWordAndPlay` then takes the accepting branch and
stores at row 64, which the array does not have, so Enter has no defined
result. -/
theorem guessed_words_store_past_capacity :
    (run (initialMain pairAssets) (exampleDraws ++ submitPairs 64 ++ typePair 64)).map
      (fun m => (m.game.state, m.game.guessedWordsNum, m.game.guessedWords.length,
        cstr m.game.currentWord))
      = some (.GAME_STATE_RUNNING, 64, 64, pairWord 64) ∧
    (run (initialMain pairAssets) (exampleDraws ++ submitPairs 64 ++ typePair 64)).map
      (fun m => (decide (cstr m.game.currentWord ∈ dictionary m.game.assets),
        decide (cstr m.game.currentWord ∈ guessed m.game),
        (m.game.guessedWords[m.game.guessedWordsNum]?).isNone,
        (checkWordAndPlay m.game).isNone))
      = some (true, false, true, true) ∧
    MAX_GUESSED_WORDS = 64 ∧
    run (initialMain pairAssets)
      (exampleDraws ++ submitPairs 64 ++ typePair 64 ++ [key SDLK_RETURN 0 0]) = none := by
  refine ⟨by decide, by decide, by decide, by decide⟩

/-- C13, the code at the failing input: after the draws, the key a pressed
25 times leaves a Running state with `currentWordSize` = 25 and a buffer of
25 letters without a terminator, so `strlen` of `currentWord` has no defined
result and neither has Enter; the 26th press is refused. -/
theorem current_word_fills_buffer :
    (run (initialMain exampleAssets) (exampleDraws ++ typeA 25)).map
      (fun m => (m.game.state, m.game.currentWordSize, m.game.currentWord,
        strlen m.game.currentWord, (checkWordAndPlay m.game).isNone))
      = some (.GAME_STATE_RUNNING, 25, List.replicate 25 65, none, true) ∧
    MAX_WORD_SIZE = 25 ∧
    (run (initialMain exampleAssets) (exampleDraws ++ typeA 24)).map
      (fun m => (m.game.currentWordSize, strlen m.game.currentWord)) = some (24, some 24) ∧
    (run (initialMain exampleAssets) (exampleDraws ++ typeA 26)).map
      (fun m => m.game.currentWordSize) = some 25 ∧
    run (initialMain exampleAssets)
      (exampleDraws ++ typeA 25 ++ [key SDLK_RETURN 0 0]) = none := by
  refine ⟨by decide, by decide, by decide, by decide, by decide⟩

/-- C14 on the example: in the reachable state in which "CIBO" is guessed,
with the dictionary "CIBO", "ABICO", the best word is at least as long. -/
theorem best_word_not_beaten_witness :
    ((∀ w ∈ guessed exampleSubmitted.game, w ∈ dictionary exampleAssets ∧ 2 ≤ w.length ∧
        (∀ c ∈ w, c ∈ cstr exampleSubmitted.game.validCharList) ∧
        inPool exampleSubmitted.game.validCharList w) ∧
      ∃ out, findValidWord exampleSubmitted.game (List.replicate MAX_WORD_SIZE 0) = some out ∧
        (∀ w ∈ guessed exampleSubmitted.game, w.length ≤ (cstr out).length) ∧
        (guessed exampleSubmitted.game ≠ [] → cstr out ≠ [])) ∧
    guessed exampleSubmitted.game = [CIBO] ∧
    findValidWord exampleSubmitted.game (List.replicate MAX_WORD_SIZE 0)
      = some (rowOf ABICO) :=
  ⟨best_word_not_beaten exampleAssets exampleSubmitted (by decide) (by decide)
    exampleSubmitted_reachable, by decide, by decide⟩

end Paroliere
